import Mathlib

/-!
Verification of `clippings.py` (micropub-clippings): a shallow embedding of
the script's pure text-processing core, with theorems checking the
natural-language specification's claims against it.

Strings are modelled as `List Char`.  Python's `str` methods used by the
script (`strip`, `split`, `replace`, `startswith`, substring containment,
`" ".join(s.split())`) are embedded as executable functions below, and the
script's functions (`fetch_bookmarks`' client-side date filter,
`parse_existing_post`, `format_bookmark`, `generate_frontmatter`,
`save_micropub_url`, `create_or_update_post`, `publish_to_microblog`) are
translated on top of them.  Filesystem state is passed explicitly
(`Option (List Char)` for a file that may not exist); the HTTP response a
publish call receives is a parameter.  The host timezone used by
`datetime.astimezone()` is modelled as a fixed UTC offset in minutes.
-/

set_option maxHeartbeats 1000000

/-- Python's default whitespace class for `str.strip()` / `str.split()`
(space, tab, newline, carriage return, vertical tab, form feed). -/
def pyIsSpace (c : Char) : Bool :=
  c = ' ' || c = '\t' || c = '\n' || c = '\r' || c.toNat = 11 || c.toNat = 12

/-- Python `s.lstrip()` restricted to a character predicate. -/
def stripStart (p : Char → Bool) (l : List Char) : List Char :=
  l.dropWhile p

/-- Python `s.rstrip()` restricted to a character predicate. -/
def stripEnd (p : Char → Bool) (l : List Char) : List Char :=
  (l.reverse.dropWhile p).reverse

/-- Python `s.strip()` restricted to a character predicate. -/
def stripWith (p : Char → Bool) (l : List Char) : List Char :=
  stripEnd p (stripStart p l)

/-- Python `s.strip()` (default whitespace). -/
def pyStrip (l : List Char) : List Char := stripWith pyIsSpace l

/-- Python `s.rstrip()` (default whitespace). -/
def pyRstrip (l : List Char) : List Char := stripEnd pyIsSpace l

/-- Python `s.strip('"')`. -/
def stripQuotes (l : List Char) : List Char := stripWith (fun c => c = '"') l

/-- Accumulator-based scanner behind `pySplitWs`: `w` is the reversed
current word. -/
def pySplitWsGo : List Char → List Char → List (List Char)
  | [], w => if w.isEmpty then [] else [w.reverse]
  | c :: cs, w =>
    if pyIsSpace c then
      if w.isEmpty then pySplitWsGo cs [] else w.reverse :: pySplitWsGo cs []
    else pySplitWsGo cs (c :: w)

/-- Python `s.split()` : split on runs of whitespace, discarding empties. -/
def pySplitWs (l : List Char) : List (List Char) :=
  pySplitWsGo l []

/-- Python `" ".join(s.split())` : collapse internal whitespace runs. -/
def collapseWs (l : List Char) : List Char :=
  List.intercalate [' '] (pySplitWs l)

/-- Python `s.split("\n")` (splitting on a single newline character). -/
def splitLines (l : List Char) : List (List Char) :=
  match l with
  | [] => [[]]
  | c :: cs =>
    if c = '\n' then [] :: splitLines cs
    else
      match splitLines cs with
      | [] => [[c]]
      | h :: t => (c :: h) :: t

/-- Join a list of lines with newline characters (inverse of `splitLines`
when no line contains a newline). -/
def flattenLines : List (List Char) → List Char
  | [] => []
  | [l] => l
  | l :: l2 :: rest => l ++ '\n' :: flattenLines (l2 :: rest)

/-- Whether the pattern occurs as a contiguous substring (Python `pat in s`). -/
def containsSub (pat : List Char) : List Char → Bool
  | [] => pat.isEmpty
  | c :: cs => pat.isPrefixOf (c :: cs) || containsSub pat cs

/-- Leftmost occurrence split: `splitFirst sep l = some (a, b)` when
`l = a ++ sep ++ b` at the first occurrence of `sep`, `none` when `sep`
does not occur. -/
def splitFirst (sep : List Char) : List Char → Option (List Char × List Char)
  | [] => if sep.isEmpty then some ([], []) else none
  | c :: cs =>
    if sep.isPrefixOf (c :: cs) then some ([], (c :: cs).drop sep.length)
    else (splitFirst sep cs).map (fun ab => (c :: ab.1, ab.2))

/-- Python `s.split(sep, maxsplit)` with `maxsplit` as fuel. -/
def pySplitMax (sep : List Char) (fuel : Nat) (l : List Char) : List (List Char) :=
  match fuel with
  | 0 => [l]
  | n + 1 =>
    match splitFirst sep l with
    | none => [l]
    | some ab => ab.1 :: pySplitMax sep n ab.2

/-- Fuelled scanner behind `pyReplaceAll`; one unit of fuel per consumed
character suffices since every step consumes at least one character. -/
def pyReplaceAllGo (old new : List Char) : Nat → List Char → List Char
  | _, [] => []
  | 0, l => l
  | fuel + 1, c :: cs =>
    if old.isPrefixOf (c :: cs) && !old.isEmpty then
      new ++ pyReplaceAllGo old new fuel (cs.drop (old.length - 1))
    else c :: pyReplaceAllGo old new fuel cs

/-- Python `s.replace(old, new)` (all non-overlapping occurrences, left to
right); `old` is assumed non-empty (true at every call site in the script). -/
def pyReplaceAll (old new l : List Char) : List Char :=
  pyReplaceAllGo old new l.length l

/-- Python `s.replace(old, new, 1)` (first occurrence only). -/
def replaceFirst (old new : List Char) : List Char → List Char
  | [] => []
  | c :: cs =>
    if old.isPrefixOf (c :: cs) then new ++ cs.drop (old.length - 1)
    else c :: replaceFirst old new cs

/-- Decimal digit character for `d < 10`. -/
def digitChar (d : Nat) : Char := Char.ofNat (48 + d % 10)

/-- Fuelled helper for decimal rendering: pushes the digits of `n` (most
significant first) in front of `acc`; fuel `n` itself always suffices. -/
def natCharsAux : Nat → Nat → List Char → List Char
  | _, 0, acc => acc
  | 0, _ + 1, acc => acc
  | fuel + 1, n + 1, acc =>
    natCharsAux fuel ((n + 1) / 10) (digitChar ((n + 1) % 10) :: acc)

/-- Decimal rendering of a natural number (Python `str(n)` / `%d`). -/
def natToChars (n : Nat) : List Char :=
  if n = 0 then ['0'] else natCharsAux n n []

/-- Zero-pad a decimal rendering to width 2 (`%m`, `%d` of `strftime`). -/
def pad2 (n : Nat) : List Char :=
  let s := natToChars n
  List.replicate (2 - s.length) '0' ++ s

/-- Zero-pad a decimal rendering to width 4 (`%Y` of `strftime`). -/
def pad4 (n : Nat) : List Char :=
  let s := natToChars n
  List.replicate (4 - s.length) '0' ++ s

/-- Calendar date, as used for the script's `--date` target
(`datetime.strptime(..., "%Y-%m-%d")` keeps only the date part relevant
to the claims below). -/
structure PyDate where
  year : Nat
  month : Nat
  day : Nat
deriving DecidableEq, Repr

/-- `strftime("%Y-%m-%d")`. -/
def fmtYmd (d : PyDate) : List Char :=
  pad4 d.year ++ ('-' :: pad2 d.month) ++ ('-' :: pad2 d.day)

/-- English month names used by `strftime("%B")`. -/
def monthTable : List (List Char) :=
  ["January".toList, "February".toList, "March".toList, "April".toList,
   "May".toList, "June".toList, "July".toList, "August".toList,
   "September".toList, "October".toList, "November".toList, "December".toList]

/-- `strftime("%B")` : full month name (empty for an out-of-range month,
which cannot arise from a validated date). -/
def monthName (m : Nat) : List Char := monthTable.getD (m - 1) []

/-- `strftime("%B %-d, %Y")` : long-form date used in post titles. -/
def fmtLong (d : PyDate) : List Char :=
  monthName d.month ++ (' ' :: natToChars d.day) ++ (',' :: ' ' :: pad4 d.year)

/-- Days from civil epoch 1970-01-01 (proleptic Gregorian calendar,
Howard Hinnant's `days_from_civil` algorithm, extensionally the mapping
Python's `datetime` date arithmetic uses). -/
def daysFromCivil (y m d : Int) : Int :=
  let y' : Int := if m ≤ 2 then y - 1 else y
  let era : Int := Int.fdiv y' 400
  let yoe : Int := y' - era * 400
  let doy : Int := Int.fdiv (153 * (if m > 2 then m - 3 else m + 9) + 2) 5 + d - 1
  let doe : Int := yoe * 365 + Int.fdiv yoe 4 - Int.fdiv yoe 100 + doy
  era * 146097 + doe - 719468

/-- Inverse of `daysFromCivil` (Hinnant's `civil_from_days`). -/
def civilFromDays (z0 : Int) : Int × Int × Int :=
  let z : Int := z0 + 719468
  let era : Int := Int.fdiv z 146097
  let doe : Int := z - era * 146097
  let yoe : Int :=
    Int.fdiv (doe - Int.fdiv doe 1460 + Int.fdiv doe 36524 - Int.fdiv doe 146096) 365
  let y : Int := yoe + era * 400
  let doy : Int := doe - (365 * yoe + Int.fdiv yoe 4 - Int.fdiv yoe 100)
  let mp : Int := Int.fdiv (5 * doy + 2) 153
  let d : Int := doy - Int.fdiv (153 * mp + 2) 5 + 1
  let m : Int := mp + (if mp < 10 then 3 else -9)
  (y + (if m ≤ 2 then 1 else 0), m, d)

/-- `strftime("%Y-%m-%d")` on the (year, month, day) triple produced by
`civilFromDays`; the components are non-negative for every date reachable
from a validated timestamp and a real-world UTC offset. -/
def fmtYmdInt (ymd : Int × Int × Int) : List Char :=
  pad4 ymd.1.toNat ++ ('-' :: pad2 ymd.2.1.toNat) ++ ('-' :: pad2 ymd.2.2.toNat)

/-- An aware-or-naive timestamp as produced by `datetime.fromisoformat`:
wall-clock fields plus an optional fixed UTC offset in minutes (`none`
models a naive datetime). Sub-second digits are parsed but not stored:
they can never move a timestamp across a calendar-day boundary because
offsets are whole minutes. -/
structure PyDateTime where
  year : Nat
  month : Nat
  day : Nat
  hour : Nat
  minute : Nat
  second : Nat
  tzOffMin : Option Int
deriving DecidableEq, Repr

/-- Proleptic-Gregorian leap-year test. -/
def isLeap (y : Nat) : Bool := y % 4 = 0 && (y % 100 ≠ 0 || y % 400 = 0)

/-- Length of a month, as validated by `datetime`. -/
def daysInMonth (y m : Nat) : Nat :=
  if m = 2 then (if isLeap y then 29 else 28)
  else if m = 4 || m = 6 || m = 9 || m = 11 then 30
  else 31

/-- Decimal value of a digit character, `none` otherwise. -/
def digitVal (c : Char) : Option Nat :=
  if c.isDigit then some (c.toNat - 48) else none

/-- Parse exactly two decimal digits. -/
def parse2 : List Char → Option (Nat × List Char)
  | a :: b :: rest => do
    let x ← digitVal a
    let y ← digitVal b
    pure (10 * x + y, rest)
  | _ => none

/-- Parse exactly four decimal digits. -/
def parse4 : List Char → Option (Nat × List Char)
  | a :: b :: c :: d :: rest => do
    let x ← digitVal a
    let y ← digitVal b
    let z ← digitVal c
    let w ← digitVal d
    pure (1000 * x + 100 * y + 10 * z + w, rest)
  | _ => none

/-- Consume an optional fractional-seconds field (`.` or `,` plus one to
six digits); the digits' value is irrelevant to day arithmetic. -/
def skipFrac (l : List Char) : List Char :=
  match l with
  | c :: rest =>
    if (c = '.' || c = ',') &&
        (match rest with | d :: _ => d.isDigit | [] => false) then
      (rest.dropWhile Char.isDigit).take 0 ++ rest.dropWhile Char.isDigit
    else l
  | [] => l

/-- Parse a trailing UTC-offset suffix `±HH:MM` or `±HH:MM:SS`, which must
consume the rest of the input; an empty rest means a naive timestamp. -/
def parseOffset : List Char → Option (Option Int)
  | [] => some none
  | s :: rest =>
    if s = '+' || s = '-' then do
      let (hh, r1) ← parse2 rest
      match r1 with
      | ':' :: r2 => do
        let (mm, r3) ← parse2 r2
        let r4 ← match r3 with
          | [] => some ([] : List Char)
          | ':' :: r5 => do
            let (ss, r6) ← parse2 r5
            if ss ≤ 59 then some r6 else none
          | _ => none
        if r4 = [] && hh ≤ 23 && mm ≤ 59 then
          some (some ((if s = '-' then (-1 : Int) else 1) * (hh * 60 + mm)))
        else none
      | _ => none
    else none

/-- Parse the time-of-day part (after the separator): `HH`, optionally
`:MM`, optionally `:SS`, optionally a fraction, then an optional offset. -/
def parseTime (l : List Char) : Option (Nat × Nat × Nat × Option Int) := do
  let (hh, r1) ← parse2 l
  let (mm, r2) ←
    match r1 with
    | ':' :: r => parse2 r
    | _ => some (0, r1)
  let (ss, r3) ←
    match r2 with
    | ':' :: r =>
      (match parse2 r with
       | some (ss, r') => some (ss, skipFrac r')
       | none => none)
    | _ => some (0, r2)
  let off ← parseOffset r3
  if hh ≤ 23 && mm ≤ 59 && ss ≤ 59 then some (hh, mm, ss, off) else none

/-- The subset of `datetime.fromisoformat` the script can feed it:
`YYYY-MM-DD`, optionally a one-character separator and a time of day with
optional fraction and optional `±HH:MM[:SS]` offset, with `datetime`'s
range validation. -/
def parseIso (l : List Char) : Option PyDateTime := do
  let (y, r1) ← parse4 l
  match r1 with
  | '-' :: r2 => do
    let (mo, r3) ← parse2 r2
    match r3 with
    | '-' :: r4 => do
      let (d, r5) ← parse2 r4
      if 1 ≤ y && 1 ≤ mo && mo ≤ 12 && 1 ≤ d && d ≤ daysInMonth y mo then
        match r5 with
        | [] => some ⟨y, mo, d, 0, 0, 0, none⟩
        | _sep :: r6 => do
          let (hh, mm, ss, off) ← parseTime r6
          some ⟨y, mo, d, hh, mm, ss, off⟩
      else none
    | _ => none
  | _ => none

/-- The script's timestamp normalisation: `created.replace("Z", "+00:00")`
followed by `datetime.fromisoformat`. -/
def parseCreated (created : List Char) : Option PyDateTime :=
  parseIso (pyReplaceAll ['Z'] "+00:00".toList created)

/-- `dt.astimezone().strftime("%Y-%m-%d")` with the host timezone modelled
as the fixed offset `tzOff` (minutes east of UTC).  A naive datetime is
treated by `astimezone` as already being in local time, i.e. its implicit
source offset is the local offset itself. -/
def localDateStr (tzOff : Int) (dt : PyDateTime) : List Char :=
  let src : Int := dt.tzOffMin.getD tzOff
  let localMin : Int :=
    daysFromCivil dt.year dt.month dt.day * 1440 + dt.hour * 60 + dt.minute
      - src + tzOff
  fmtYmdInt (civilFromDays (Int.fdiv localMin 1440))

/-- The date string the filter compares against the target
(`item_date` in `fetch_bookmarks`): the parsed timestamp converted to
local time when parsing succeeds, else the first ten characters of the
raw string. -/
def itemDate (tzOff : Int) (created : List Char) : List Char :=
  match parseCreated created with
  | some dt => localDateStr tzOff dt
  | none => created.take 10

/-- A raw highlight dict from the Raindrop API (`hl.get("text", "")`,
`hl.get("note", "")`; `none` models an absent key). -/
structure RawHighlight where
  text : Option (List Char)
  note : Option (List Char)
deriving DecidableEq, Repr

/-- A raw item dict from the Raindrop search response (fields accessed via
`item.get(...)`; `none` models an absent key). -/
structure RawItem where
  title : Option (List Char)
  link : Option (List Char)
  excerpt : Option (List Char)
  note : Option (List Char)
  highlights : Option (List RawHighlight)
  created : Option (List Char)
deriving DecidableEq, Repr

/-- The bookmark dict `fetch_bookmarks` builds for a selected item. -/
structure Bookmark where
  title : List Char
  url : List Char
  excerpt : List Char
  note : List Char
  highlights : List RawHighlight
  created : List Char
deriving DecidableEq, Repr

/-- The dict appended by `fetch_bookmarks` for an item, with the `get`
defaults of the script. -/
def mkBookmark (it : RawItem) : Bookmark where
  title := it.title.getD "Untitled".toList
  url := it.link.getD []
  excerpt := it.excerpt.getD []
  note := it.note.getD []
  highlights := it.highlights.getD []
  created := it.created.getD []

/-- The filter applied to each item: a non-empty `created` string whose
`item_date` equals the target date string. -/
def includeItem (tzOff : Int) (targetStr : List Char) (it : RawItem) : Bool :=
  let created := it.created.getD []
  !created.isEmpty && (itemDate tzOff created = targetStr)

/-- `fetch_bookmarks`' client-side selection loop over the items of the
search response (the network call itself and the tag-filtered query are
the environment; `items` is the decoded `data.get("items", [])`). -/
def fetch_bookmarks (tzOff : Int) (target : PyDate) (items : List RawItem) :
    List Bookmark :=
  items.foldl
    (fun acc it =>
      if includeItem tzOff (fmtYmd target) it then acc ++ [mkBookmark it]
      else acc) []

/-- Key of the remote-identifier frontmatter field. -/
def mpKey : List Char := "micropub_url".toList

/-- The literal `micropub_url:` searched for by `save_micropub_url`. -/
def mpPat : List Char := "micropub_url:".toList

/-- `micropub_url: ` with the following space. -/
def mpColonSpace : List Char := "micropub_url: ".toList

/-- The frontmatter closing delimiter on its own line, `"\n---\n"`. -/
def delimLine : List Char := "\n---\n".toList

/-- Python-dict lookup on an insertion-ordered association list where a
later binding for the same key overwrites an earlier one. -/
def dictLookup (m : List (List Char × List Char)) (k : List Char) :
    Option (List Char) :=
  m.foldl (fun acc p => if p.1 = k then some p.2 else acc) none

/-- Python `len` of such a dict: the number of distinct keys. -/
def dictLen (m : List (List Char × List Char)) : Nat :=
  (m.map Prod.fst).dedup.length

/-- The frontmatter dict built by `parse_existing_post`: for each line of
the frontmatter block containing a colon, `line.split(":", 1)` (split at
the first colon), key stripped, value stripped then quote-stripped. -/
def parseFrontmatterBlock (s : List Char) : List (List Char × List Char) :=
  (splitLines s).foldl
    (fun fm line =>
      if line.contains ':' then
        match splitFirst [':'] line with
        | some kv => fm ++ [(pyStrip kv.1, stripQuotes (pyStrip kv.2))]
        | none => fm
      else fm) []

/-- The regex lookahead `^\s*-\s+\[` tested at a line-start position. -/
def lookStart (s : List Char) : Bool :=
  match s.dropWhile pyIsSpace with
  | '-' :: c :: rest =>
    pyIsSpace c &&
      (match (c :: rest).dropWhile pyIsSpace with
       | '[' :: _ => true
       | _ => false)
  | _ => false

/-- The head `\s*-\s+\[([^\]]+)\]\(([^)]+)\)` of the link-item regex,
matched at a line-start position; returns the captured URL and the rest of
the input after the closing parenthesis. -/
def parseItemHeadRest (s : List Char) : Option (List Char × List Char) :=
  match s.dropWhile pyIsSpace with
  | '-' :: c :: rest =>
    if pyIsSpace c then
      match (c :: rest).dropWhile pyIsSpace with
      | '[' :: u =>
        if (u.takeWhile (fun x => x ≠ ']')).isEmpty then none
        else
          match u.dropWhile (fun x => x ≠ ']') with
          | ']' :: '(' :: v =>
            if (v.takeWhile (fun x => x ≠ ')')).isEmpty then none
            else
              match v.dropWhile (fun x => x ≠ ')') with
              | ')' :: rest2 => some (v.takeWhile (fun x => x ≠ ')'), rest2)
              | _ => none
          | _ => none
      | _ => none
    else none
  | _ => none

theorem parseItemHeadRest_length {s u rest : List Char}
    (h : parseItemHeadRest s = some (u, rest)) : rest.length < s.length := by
  unfold parseItemHeadRest at h
  have hds := (List.dropWhile_suffix (l := s) pyIsSpace).length_le
  split at h
  case _ c rest1 heq =>
    split at h
    · split at h
      case _ u1 hequ =>
        have hdu := (List.dropWhile_suffix (l := c :: rest1) pyIsSpace).length_le
        rw [hequ] at hdu
        split at h
        · exact absurd h (by simp)
        · split at h
          case _ v hv =>
            have hdv := (List.dropWhile_suffix (l := u1) (fun x => x ≠ ']')).length_le
            rw [hv] at hdv
            split at h
            · exact absurd h (by simp)
            · split at h
              case _ rest2 hw =>
                have hdw :=
                  (List.dropWhile_suffix (l := v) (fun x => x ≠ ')')).length_le
                rw [hw] at hdw
                simp only [Option.some.injEq, Prod.mk.injEq] at h
                obtain ⟨-, h2⟩ := h
                subst h2
                rw [heq] at hds
                simp only [List.length_cons] at hds hdu hdv hdw
                omega
              all_goals exact absurd h (by simp)
          all_goals exact absurd h (by simp)
      all_goals exact absurd h (by simp)
    · exact absurd h (by simp)
  · exact absurd h (by simp)

/-- Scan for the end of a link block: the first position after a newline
where the lookahead `^\s*-\s+\[` holds; returns the consumed part and the
suffix starting at the boundary. -/
def findBoundary : List Char → List Char × List Char
  | [] => ([], [])
  | c :: cs =>
    if c = '\n' && lookStart cs then ([c], cs)
    else
      let p := findBoundary cs
      (c :: p.1, p.2)

theorem findBoundary_snd_le (l : List Char) :
    (findBoundary l).2.length ≤ l.length := by
  induction l with
  | nil => simp [findBoundary]
  | cons c cs ih =>
    unfold findBoundary
    split
    · simp
    · simpa using Nat.le_succ_of_le ih

/-- Fuelled driver for the scan performed by `finditer` with the link-item
regex `^\s*-\s+\[([^\]]+)\]\(([^)]+)\)(.*?)(?=^\s*-\s+\[|\Z)`
(MULTILINE, DOTALL): matches start at line-start positions; each match
captures the URL and extends lazily to the next position satisfying the
lookahead, or to the end; the full match is right-stripped.  Every step
consumes at least one character, so fuel equal to the input length
suffices. -/
def linkScanGo : Nat → List Char → Bool → List (List Char × List Char)
  | 0, _, _ => []
  | _ + 1, [], _ => []
  | fuel + 1, c :: cs, atStart =>
    if atStart then
      match parseItemHeadRest (c :: cs) with
      | some ur =>
        let hd := (c :: cs).take ((c :: cs).length - ur.2.length)
        let bd := findBoundary ur.2
        (ur.1, pyRstrip (hd ++ bd.1)) :: linkScanGo fuel bd.2 true
      | none => linkScanGo fuel cs (c = '\n')
    else linkScanGo fuel cs (c = '\n')

/-- The link dict of `parse_existing_post`: URL keys mapped to the full
right-stripped match. -/
def parseLinks (body : List Char) : List (List Char × List Char) :=
  linkScanGo body.length body true

/-- The pure core of `parse_existing_post` applied to an existing file's
content: splits off the frontmatter block (when the content starts with
`---` and `content.split("---", 2)` has at least three parts), parses it
into a dict, and extracts the links from the body. -/
def parseContent (content : List Char) :
    List (List Char × List Char) × List (List Char × List Char) × List Char :=
  let fmBody : List Char × List Char :=
    if "---".toList.isPrefixOf content then
      match pySplitMax "---".toList 2 content with
      | _ :: p1 :: p2 :: _ => (pyStrip p1, pyStrip p2)
      | _ => ([], content)
    else ([], content)
  (parseFrontmatterBlock fmBody.1, parseLinks fmBody.2, fmBody.2)

/-- `parse_existing_post`: `none` for the file models a missing path
(returns `(None, emptydict, None)`); otherwise the parsed triple. -/
def parse_existing_post (file : Option (List Char)) :
    Option (List (List Char × List Char)) ×
      List (List Char × List Char) × Option (List Char) :=
  match file with
  | none => (none, [], none)
  | some content =>
    let r := parseContent content
    (some r.1, r.2.1, some r.2.2)

/-- The text `format_bookmark` appends for one highlight: nothing when the
stripped highlight text is empty, else a blockquote with the text's
whitespace collapsed, plus an attribution sub-line when the highlight has
a non-blank note (the em dash of the source file's bytes is reproduced
as-is). -/
def fmtHighlightChunk (hl : RawHighlight) : List Char :=
  let hlText := pyStrip (hl.text.getD [])
  if hlText.isEmpty then []
  else
    "\n\n    > ".toList ++ collapseWs hlText ++
      (let hlNote := pyStrip (hl.note.getD [])
       if hlNote.isEmpty then []
       else "\n    >\n    > â€” *".toList ++ hlNote ++ "*".toList)

/-- `format_bookmark`: the markdown list item for one bookmark. -/
def format_bookmark (b : Bookmark) : List Char :=
  let excerpt := pyStrip b.excerpt
  let note := pyStrip b.note
  let base :=
    "- [".toList ++ b.title ++ "](".toList ++ b.url ++ ")".toList
      ++ (if excerpt.isEmpty then []
          else "\n\n    ".toList ++ collapseWs excerpt)
      ++ (if note.isEmpty then []
          else "\n\n    *".toList ++ collapseWs note ++ "*".toList)
  b.highlights.foldl (fun acc hl => acc ++ fmtHighlightChunk hl) base

/-- The `title:` frontmatter line. -/
def titleLine (d : PyDate) : List Char :=
  "title: \"Clippings for ".toList ++ fmtLong d ++ ['"']

/-- The `date:` frontmatter line. -/
def dateLine (d : PyDate) : List Char := "date: ".toList ++ fmtYmd d

/-- The fixed `type: post` frontmatter line. -/
def typeLine : List Char := "type: post".toList

/-- The optional category frontmatter lines (absent for a falsy category;
the script's empty-string default and `None` behave identically). -/
def catLines (category : List Char) : List (List Char) :=
  if category.isEmpty then []
  else ["categories:".toList, "- \"".toList ++ category ++ ['"']]

/-- The optional `micropub_url:` frontmatter line (absent for a falsy
identifier: `None` or the empty string). -/
def mpLines (murl : Option (List Char)) : List (List Char) :=
  match murl with
  | some u => if u.isEmpty then [] else [mpColonSpace ++ u]
  | none => []

/-- All frontmatter lines, in the fixed order of `generate_frontmatter`. -/
def fmLines (d : PyDate) (murl : Option (List Char)) (category : List Char) :
    List (List Char) :=
  [titleLine d, dateLine d, typeLine] ++ catLines category ++ mpLines murl

/-- `generate_frontmatter`: the delimited frontmatter block (the f-string
concatenation of the source, grouped as delimiter, newline-joined lines,
delimiter). -/
def generate_frontmatter (d : PyDate) (murl : Option (List Char))
    (category : List Char) : List Char :=
  "---".toList ++ ('\n' :: flattenLines (fmLines d murl category) ++ ['\n'])
    ++ "---".toList

/-- The replacement-template escape processing `re.sub` performs on its
string replacement argument (`\n`, `\r`, `\t`, `\a`, `\b`, `\f`, `\v`,
`\\` are translated; any other escape, group references included, is an
error for the pattern at hand, modelled as `none`). -/
def processRepl : List Char → Option (List Char)
  | [] => some []
  | '\\' :: c :: rest =>
    (match c with
     | 'n' => (processRepl rest).map (fun r => '\n' :: r)
     | 'r' => (processRepl rest).map (fun r => '\r' :: r)
     | 't' => (processRepl rest).map (fun r => '\t' :: r)
     | 'a' => (processRepl rest).map (fun r => Char.ofNat 7 :: r)
     | 'b' => (processRepl rest).map (fun r => Char.ofNat 8 :: r)
     | 'f' => (processRepl rest).map (fun r => Char.ofNat 12 :: r)
     | 'v' => (processRepl rest).map (fun r => Char.ofNat 11 :: r)
     | '\\' => (processRepl rest).map (fun r => '\\' :: r)
     | _ => none)
  | ['\\'] => none
  | c :: rest => (processRepl rest).map (fun r => c :: r)

/-- Two-mode scanner for `re.sub(r'micropub_url:.*', repl, s)` with an
already escape-processed replacement `repl`.  In normal mode (`skip =
false`) an occurrence of `micropub_url:` emits `repl` and switches to
skip mode, which consumes the rest of the line (`.*` without DOTALL);
scanning resumes at the newline. -/
def reSubGo (repl : List Char) : List Char → Bool → List Char
  | [], _ => []
  | c :: cs, true =>
    if c = '\n' then c :: reSubGo repl cs false else reSubGo repl cs true
  | c :: cs, false =>
    if mpPat.isPrefixOf (c :: cs) then repl ++ reSubGo repl cs true
    else c :: reSubGo repl cs false

/-- `re.sub(r'micropub_url:.*', repl, s)`. -/
def reSubMp (repl : List Char) (l : List Char) : List Char :=
  reSubGo repl l false

/-- `save_micropub_url`: rewrite an existing `micropub_url:` line via
`re.sub`, else insert the line before the closing `---` via
`content.replace("\n---\n", ..., 1)`; `none` models the `re.error` raised
for a replacement containing an invalid escape. -/
def save_micropub_url (content url : List Char) : Option (List Char) :=
  if containsSub mpPat content then
    (processRepl (mpColonSpace ++ url)).map (fun repl => reSubMp repl content)
  else
    some (replaceFirst delimLine
      ('\n' :: mpColonSpace ++ url ++ delimLine) content)

/-- The body text `create_or_update_post` accumulates: a newline before
each formatted bookmark. -/
def renderBody (bookmarks : List Bookmark) : List Char :=
  bookmarks.foldl (fun acc b => acc ++ '\n' :: format_bookmark b) []

/-- `create_or_update_post` over an explicit file store (date-indexed file
contents; `mkdir` only touches directories and is invisible here).
Returns the written content (`None` when there was nothing to write) and
the store afterwards. -/
def create_or_update_post (target : PyDate) (bookmarks : List Bookmark)
    (category : List Char) (store : PyDate → Option (List Char)) :
    Option (List Char) × (PyDate → Option (List Char)) :=
  if bookmarks.isEmpty then (none, store)
  else
    let murl : Option (List Char) :=
      match store target with
      | some prev => dictLookup (parseContent prev).1 mpKey
      | none => none
    let content :=
      generate_frontmatter target murl category ++ ('\n' :: renderBody bookmarks)
        ++ ['\n']
    (some content, fun d => if d = target then some content else store d)

/-- The HTTP response the publish request receives. -/
structure HttpResponse where
  status : Nat
  text : List Char
  location : Option (List Char)
deriving DecidableEq, Repr

/-- Observable outcome of `publish_to_microblog`: `exitCode` is set by
`sys.exit`, `retval` is the returned boolean, `file` is the draft file
content afterwards, `raised` marks a propagated `re.error` from
`save_micropub_url`, `printed` collects the `print` calls (the two
messages naming the filesystem path elide the path). -/
structure PublishOutcome where
  exitCode : Option Nat
  retval : Option Bool
  file : Option (List Char)
  raised : Bool
  printed : List (List Char)
deriving DecidableEq, Repr

/-- Python truthiness of an optional string (`None` and `""` are falsy). -/
def pyTruthyOpt (o : Option (List Char)) : Bool :=
  match o with
  | some u => !u.isEmpty
  | none => false

/-- `publish_to_microblog` (the outbound POST itself is the environment:
`resp` is whichever response the single request of the taken branch
receives; the form/JSON payloads do not feed back into local state). -/
def publish_to_microblog (file : Option (List Char)) (target : PyDate)
    (resp : HttpResponse) : PublishOutcome :=
  match file with
  | none =>
    { exitCode := some 1, retval := none, file := none, raised := false,
      printed := ["Error: No local draft found".toList,
                  "Run without --publish first to create a draft.".toList] }
  | some content =>
    let parsed := parseContent content
    let fm := parsed.1
    let links := parsed.2.1
    let body := parsed.2.2
    if (pyStrip body).isEmpty then
      { exitCode := some 1, retval := none, file := some content,
        raised := false,
        printed := ["Error: Post has no content to publish.".toList] }
    else
      let title :=
        (dictLookup fm "title".toList).getD
          ("Clippings for ".toList ++ fmtLong target)
      let existing := dictLookup fm mpKey
      if pyTruthyOpt existing then
        let u := existing.getD []
        let pre := ["Updating existing post on Micro.blog...".toList,
                    "  URL: ".toList ++ u,
                    "  Links: ".toList ++ natToChars (dictLen links)]
        if resp.status = 200 || resp.status = 204 then
          { exitCode := none, retval := some true, file := some content,
            raised := false,
            printed := pre ++ ["\nUpdated successfully!".toList] }
        else
          { exitCode := none, retval := some false, file := some content,
            raised := false,
            printed := pre ++ ["\nError updating: ".toList
                                ++ natToChars resp.status, resp.text] }
      else
        let pre := ["Publishing new post to Micro.blog...".toList,
                    "  Title: ".toList ++ title,
                    "  Date: ".toList ++ fmtYmd target,
                    "  Links: ".toList ++ natToChars (dictLen links)]
        if resp.status = 201 || resp.status = 202 then
          let location := resp.location.getD []
          if location.isEmpty then
            { exitCode := none, retval := some true, file := some content,
              raised := false,
              printed := pre ++ ["\nPublished successfully!".toList] }
          else
            match save_micropub_url content location with
            | some c2 =>
              { exitCode := none, retval := some true, file := some c2,
                raised := false,
                printed := pre ++
                  ["\nPublished successfully!".toList,
                   "  URL: ".toList ++ location,
                   "  Saved URL to frontmatter for future updates".toList] }
            | none =>
              { exitCode := none, retval := none, file := some content,
                raised := true,
                printed := pre ++ ["\nPublished successfully!".toList,
                                   "  URL: ".toList ++ location] }
        else
          { exitCode := none, retval := some false, file := some content,
            raised := false,
            printed := pre ++ ["\nError publishing: ".toList
                                ++ natToChars resp.status, resp.text] }

/-! ### Spec-modelled definitions and concrete example inputs

The `spec…` definitions below follow the specification's words (not the
source) and exist only to be compared against the functions translated
from the source; the `ex…` definitions are concrete inputs used by the
example-based theorems. -/

/-- Spec-modelled counterpart of `parseFrontmatterBlock`, following the
spec's "last colon-delimited split per line": each line containing a
colon is split at its last colon, the part before is the key and the
part after (whitespace- and quote-stripped) is the value. -/
def specParseLastColon (s : List Char) : List (List Char × List Char) :=
  (splitLines s).foldl
    (fun fm line =>
      if line.contains ':' then
        match splitFirst [':'] line.reverse with
        | some ab =>
          fm ++ [(pyStrip ab.2.reverse, stripQuotes (pyStrip ab.1.reverse))]
        | none => fm
      else fm) []

/-- Spec-modelled: blocks joined with exactly one blank line between
consecutive blocks. -/
def joinBlocks : List (List Char) → List Char
  | [] => []
  | [b] => b
  | b :: b2 :: rest => b ++ "\n\n".toList ++ joinBlocks (b2 :: rest)

/-- Spec-modelled: one indented blockquote per highlight (whitespace
collapsed), with the attributed sub-line when the highlight carries a
note. -/
def specHighlightBlock (hl : RawHighlight) : List Char :=
  "    > ".toList ++ collapseWs (pyStrip (hl.text.getD []))
    ++ (if (pyStrip (hl.note.getD [])).isEmpty then []
        else "\n    >\n    > â€” *".toList ++ pyStrip (hl.note.getD [])
          ++ "*".toList)

/-- Spec-modelled rendering of one bookmark per the claim: exactly one
link line, one indented excerpt paragraph, one indented italicised note
paragraph, and one highlight block per highlight, each block separated
from the previous by a blank line, with internal whitespace runs
collapsed. -/
def specFormatBookmark (b : Bookmark) : List Char :=
  joinBlocks
    (["- [".toList ++ b.title ++ "](".toList ++ b.url ++ ")".toList,
      "    ".toList ++ collapseWs (pyStrip b.excerpt),
      "    *".toList ++ collapseWs (pyStrip b.note) ++ "*".toList]
      ++ b.highlights.map specHighlightBlock)

/-- The target date of the spec's timezone example. -/
def exDate : PyDate := ⟨2026, 1, 17⟩

/-- The spec example's first item: created `2026-01-17T23:30:00.000Z`. -/
def exItemEarly : RawItem :=
  { title := some "Early".toList, link := some "https://e".toList,
    excerpt := none, note := none, highlights := none,
    created := some "2026-01-17T23:30:00.000Z".toList }

/-- The spec example's second item: created `2026-01-18T02:00:00.000Z`. -/
def exItemLate : RawItem :=
  { title := some "Late".toList, link := some "https://l".toList,
    excerpt := none, note := none, highlights := none,
    created := some "2026-01-18T02:00:00.000Z".toList }

/-- A concrete bookmark with non-blank excerpt, note and one highlight. -/
def exBookmark : Bookmark :=
  { title := "T".toList, url := "https://t".toList,
    excerpt := "e".toList, note := "n".toList,
    highlights := [⟨some "h".toList, none⟩],
    created := "2026-01-17T23:30:00.000Z".toList }

/-- A bookmark whose excerpt and highlight text are non-empty strings but
blank (whitespace only). -/
def exBlankBookmark : Bookmark :=
  { title := "T".toList, url := "https://t".toList,
    excerpt := " ".toList, note := "n".toList,
    highlights := [⟨some " ".toList, none⟩],
    created := [] }

/-- A previously written post whose frontmatter has a `micropub_url` key
with an empty value. -/
def exPrevEmptyMp : List Char :=
  "---\ntitle: t\nmicropub_url:\n---\nold body".toList

/-- A store holding `exPrevEmptyMp` for the example date. -/
def exStorePrev : PyDate → Option (List Char) :=
  fun d => if d = exDate then some exPrevEmptyMp else none

/-- A draft file with no frontmatter block at all. -/
def exNoFrontmatter : List Char := "just some text".toList

/-- A successful creation response carrying a Location header. -/
def exResp201 : HttpResponse :=
  { status := 201, text := [], location := some "https://mb/p/1".toList }

/-- A failing publish response. -/
def exResp500 : HttpResponse :=
  { status := 500, text := "boom".toList, location := none }

/-- A minimal well-formed draft file. -/
def exDraft : List Char := "---\ntitle: t\n---\nbody".toList

/-- The file `create_or_update_post` writes for `exDate`, `exBookmark`,
no category and an empty store. -/
def exCreated : List Char :=
  (create_or_update_post exDate [exBookmark] [] (fun _ => none)).1.getD []

/-- A URL string containing a backslash escape but no newline. -/
def exUrlBackslash : List Char := ['\\', 'n']

/-! ### General lemmas about the string primitives -/

theorem containsSub_eq_true_iff {p l : List Char} :
    containsSub p l = true ↔ p <:+: l := by
  induction l with
  | nil => simp [containsSub, List.isEmpty_iff, List.infix_nil]
  | cons c cs ih =>
    simp [containsSub, List.infix_cons_iff, List.isPrefixOf_iff_prefix, ih]

theorem containsSub_eq_false_iff {p l : List Char} :
    containsSub p l = false ↔ ¬ p <:+: l := by
  rw [← containsSub_eq_true_iff]
  cases containsSub p l <;> simp

theorem mem_of_containsSub {p l : List Char} (h : containsSub p l = true)
    {c : Char} (hc : c ∈ p) : c ∈ l :=
  (containsSub_eq_true_iff.mp h).mem hc

theorem containsSub_eq_false_of_not_mem {p l : List Char} {c : Char}
    (hc : c ∈ p) (h : c ∉ l) : containsSub p l = false := by
  cases hcs : containsSub p l
  · rfl
  · exact absurd (mem_of_containsSub hcs hc) h

theorem prefix_append_cases :
    ∀ {x p z : List Char}, p <+: x ++ z →
      p <+: x ∨ ∃ q, p = x ++ q ∧ q <+: z := by
  intro x
  induction x with
  | nil => exact fun h => Or.inr ⟨_, rfl, h⟩
  | cons a x' ih =>
    intro p z h
    cases p with
    | nil => exact Or.inl (List.nil_prefix)
    | cons b p' =>
      rw [List.cons_append, List.cons_prefix_cons] at h
      obtain ⟨hb, hp⟩ := h
      rcases ih hp with h1 | ⟨q, hq1, hq2⟩
      · exact Or.inl (by rw [hb]; exact List.cons_prefix_cons.mpr ⟨rfl, h1⟩)
      · exact Or.inr ⟨q, by rw [hb, hq1, List.cons_append], hq2⟩

theorem isPrefixOf_append_left {p x : List Char} (y : List Char)
    (h : p.isPrefixOf x = true) : p.isPrefixOf (x ++ y) = true :=
  List.isPrefixOf_iff_prefix.mpr
    ((List.isPrefixOf_iff_prefix.mp h).trans (List.prefix_append x y))

theorem containsSub_cons_of_tail {p : List Char} {c : Char} {cs : List Char}
    (h : containsSub p cs = true) : containsSub p (c :: cs) = true := by
  simp [containsSub, h]

theorem containsSub_of_isPrefixOf {p l : List Char}
    (h : p.isPrefixOf l = true) : containsSub p l = true := by
  cases l with
  | nil =>
    simp only [List.isPrefixOf_iff_prefix, List.prefix_nil] at h
    simp [containsSub, h]
  | cons c cs => simp [containsSub, h]

theorem containsSub_append_right {p x y : List Char}
    (h : containsSub p y = true) : containsSub p (x ++ y) = true := by
  induction x with
  | nil => simpa using h
  | cons a x' ih => exact containsSub_cons_of_tail ih

theorem containsSub_append_left {p x : List Char} (y : List Char)
    (h : containsSub p x = true) : containsSub p (x ++ y) = true :=
  containsSub_eq_true_iff.mpr
    ((containsSub_eq_true_iff.mp h).trans (List.prefix_append x y).isInfix)

/-- Occurrences of `p` cannot straddle the boundary of `x ++ y` when the
first character of `y` does not occur in `p` at all. -/
theorem containsSub_append_head {p x y : List Char} (hp : p ≠ [])
    (hy : ∀ c, y.head? = some c → c ∉ p) :
    containsSub p (x ++ y) = (containsSub p x || containsSub p y) := by
  induction x with
  | nil =>
    have : p.isEmpty = false := by
      cases p with
      | nil => exact absurd rfl hp
      | cons a as => rfl
    simp [containsSub, this]
  | cons a x' ih =>
    have hstep : p.isPrefixOf (a :: x' ++ y) = p.isPrefixOf (a :: x') := by
      cases hpre : p.isPrefixOf (a :: x')
      · cases hpre2 : p.isPrefixOf ((a :: x') ++ y)
        · rfl
        · exfalso
          rcases prefix_append_cases (List.isPrefixOf_iff_prefix.mp hpre2) with
            h1 | ⟨q, hq1, hq2⟩
          · rw [List.isPrefixOf_iff_prefix.mpr h1] at hpre
            simp at hpre
          · cases q with
            | nil =>
              rw [List.append_nil] at hq1
              rw [hq1, List.isPrefixOf_iff_prefix.mpr (List.prefix_refl _)] at hpre
              simp at hpre
            | cons qh qt =>
              obtain ⟨t, ht⟩ := hq2
              have hyh : y.head? = some qh := by rw [← ht]; rfl
              have hqp : qh ∈ p := by
                rw [hq1]
                exact List.mem_append_right _ (List.mem_cons_self qh qt)
              exact hy qh hyh hqp
      · exact isPrefixOf_append_left y hpre
    rw [List.cons_append]
    calc containsSub p (a :: (x' ++ y))
        = (p.isPrefixOf (a :: (x' ++ y)) || containsSub p (x' ++ y)) := rfl
      _ = (p.isPrefixOf (a :: x') || (containsSub p x' || containsSub p y)) := by
          rw [← List.cons_append, hstep, ih]
      _ = (containsSub p (a :: x') || containsSub p y) := by
          simp [containsSub, Bool.or_assoc]

/-- Occurrences of `p` cannot straddle the boundary of `x ++ y` when the
last character of `x` does not occur in `p` at all. -/
theorem containsSub_append_last {p x y : List Char} (hp : p ≠ [])
    (hx : ∀ c, x.getLast? = some c → c ∉ p) :
    containsSub p (x ++ y) = (containsSub p x || containsSub p y) := by
  induction x with
  | nil =>
    have : p.isEmpty = false := by
      cases p with
      | nil => exact absurd rfl hp
      | cons a as => rfl
    simp [containsSub, this]
  | cons a x' ih =>
    have hx' : ∀ c, x'.getLast? = some c → c ∉ p := by
      intro c hc
      cases x' with
      | nil => simp at hc
      | cons b t => exact hx c (by rw [List.getLast?_cons_cons]; exact hc)
    have hlast : (a :: x').getLast? = some ((a :: x').getLast (by simp)) :=
      List.getLast?_eq_getLast _ _
    have hstep : p.isPrefixOf (a :: x' ++ y) = p.isPrefixOf (a :: x') := by
      cases hpre : p.isPrefixOf (a :: x')
      · cases hpre2 : p.isPrefixOf ((a :: x') ++ y)
        · rfl
        · exfalso
          rcases prefix_append_cases (List.isPrefixOf_iff_prefix.mp hpre2) with
            h1 | ⟨q, hq1, hq2⟩
          · rw [List.isPrefixOf_iff_prefix.mpr h1] at hpre
            simp at hpre
          · have : (a :: x').getLast (by simp) ∈ p := by
              rw [hq1]
              exact List.mem_append_left _ (List.getLast_mem _)
            exact hx _ hlast this
      · exact isPrefixOf_append_left y hpre
    rw [List.cons_append]
    calc containsSub p (a :: (x' ++ y))
        = (p.isPrefixOf (a :: (x' ++ y)) || containsSub p (x' ++ y)) := rfl
      _ = (p.isPrefixOf (a :: x') || (containsSub p x' || containsSub p y)) := by
          rw [← List.cons_append, hstep, ih hx']
      _ = (containsSub p (a :: x') || containsSub p y) := by
          simp [containsSub, Bool.or_assoc]

theorem splitFirst_eq_none {sep l : List Char}
    (h : containsSub sep l = false) : splitFirst sep l = none := by
  induction l with
  | nil =>
    simp only [containsSub] at h
    simp [splitFirst, h]
  | cons c cs ih =>
    simp only [containsSub, Bool.or_eq_false_iff] at h
    rw [splitFirst, if_neg (by simp [h.1]), ih h.2]
    rfl

theorem splitFirst_self_append {sep : List Char} (rest : List Char)
    (hp : sep ≠ []) : splitFirst sep (sep ++ rest) = some ([], rest) := by
  cases sep with
  | nil => exact absurd rfl hp
  | cons s ss =>
    rw [List.cons_append, splitFirst,
      if_pos (List.isPrefixOf_iff_prefix.mpr
        (by rw [← List.cons_append]; exact List.prefix_append _ _))]
    rw [← List.cons_append, List.drop_left]

/-- First-occurrence split located at an explicitly given occurrence:
valid when the prefix `x` contains no occurrence and none straddles the
boundary (guaranteed by `x`'s last character not occurring in `sep`). -/
theorem splitFirst_append_self {sep x z : List Char} (hp : sep ≠ [])
    (hx : containsSub sep x = false)
    (hlast : ∀ c, x.getLast? = some c → c ∉ sep) :
    splitFirst sep (x ++ (sep ++ z)) = some (x, z) := by
  induction x with
  | nil => simpa using splitFirst_self_append z hp
  | cons a x' ih =>
    simp only [containsSub, Bool.or_eq_false_iff] at hx
    have hx' : ∀ c, x'.getLast? = some c → c ∉ sep := by
      intro c hc
      cases x' with
      | nil => simp at hc
      | cons b t => exact hlast c (by rw [List.getLast?_cons_cons]; exact hc)
    have hnp : ¬ sep <+: (a :: x') ++ (sep ++ z) := by
      intro hpre
      rcases prefix_append_cases (x := a :: x') hpre with h1 | ⟨q, hq1, hq2⟩
      · have hb := List.isPrefixOf_iff_prefix.mpr h1
        rw [hx.1] at hb
        exact absurd hb (by simp)
      · have hmem : (a :: x').getLast (by simp) ∈ sep := by
          rw [hq1]
          exact List.mem_append_left _ (List.getLast_mem _)
        exact hlast _ (List.getLast?_eq_getLast _ _) hmem
    rw [List.cons_append, splitFirst,
      if_neg (by simpa using hnp), ih hx.2 hx']
    rfl

theorem replaceFirst_eq_self {old new l : List Char}
    (h : containsSub old l = false) : replaceFirst old new l = l := by
  induction l with
  | nil => rfl
  | cons c cs ih =>
    simp only [containsSub, Bool.or_eq_false_iff] at h
    rw [replaceFirst, if_neg (by simp [h.1]), ih h.2]

theorem replaceFirst_append_self {old new x z : List Char} (hp : old ≠ [])
    (hx : containsSub old x = false)
    (hlast : ∀ c, x.getLast? = some c → c ∉ old) :
    replaceFirst old new (x ++ (old ++ z)) = x ++ (new ++ z) := by
  induction x with
  | nil =>
    cases old with
    | nil => exact absurd rfl hp
    | cons o os =>
      simp only [List.nil_append]
      rw [List.cons_append, replaceFirst,
        if_pos (List.isPrefixOf_iff_prefix.mpr
          (by rw [← List.cons_append]; exact List.prefix_append _ _))]
      simp only [List.length_cons, Nat.add_sub_cancel]
      rw [List.drop_left]
  | cons a x' ih =>
    simp only [containsSub, Bool.or_eq_false_iff] at hx
    have hx' : ∀ c, x'.getLast? = some c → c ∉ old := by
      intro c hc
      cases x' with
      | nil => simp at hc
      | cons b t => exact hlast c (by rw [List.getLast?_cons_cons]; exact hc)
    have hnp : ¬ old <+: (a :: x') ++ (old ++ z) := by
      intro hpre
      rcases prefix_append_cases (x := a :: x') hpre with h1 | ⟨q, hq1, hq2⟩
      · have hb := List.isPrefixOf_iff_prefix.mpr h1
        rw [hx.1] at hb
        exact absurd hb (by simp)
      · have hmem : (a :: x').getLast (by simp) ∈ old := by
          rw [hq1]
          exact List.mem_append_left _ (List.getLast_mem _)
        exact hlast _ (List.getLast?_eq_getLast _ _) hmem
    rw [List.cons_append, replaceFirst,
      if_neg (by simpa using hnp), ih hx.2 hx']
    rfl

/-- Any content containing `old` splits at the first occurrence, and
`replaceFirst` rewrites exactly there. -/
theorem replaceFirst_decomp {old : List Char} (new : List Char)
    {l : List Char} (hp : old ≠ []) (h : containsSub old l = true) :
    ∃ a b, l = a ++ (old ++ b) ∧
      replaceFirst old new l = a ++ (new ++ b) := by
  induction l with
  | nil =>
    simp only [containsSub, List.isEmpty_iff] at h
    exact absurd h hp
  | cons c cs ih =>
    cases hpre : old.isPrefixOf (c :: cs)
    · simp only [containsSub, hpre, Bool.false_or] at h
      obtain ⟨a, b, hab, hr⟩ := ih h
      refine ⟨c :: a, b, by rw [List.cons_append, ← hab], ?_⟩
      rw [replaceFirst, if_neg (by simp [hpre]), hr]
      rfl
    · obtain ⟨t, ht⟩ := List.isPrefixOf_iff_prefix.mp hpre
      refine ⟨[], t, by rw [← ht]; rfl, ?_⟩
      cases old with
      | nil => exact absurd rfl hp
      | cons o os =>
        rw [replaceFirst, if_pos hpre]
        have : cs.drop ((o :: os).length - 1) = t := by
          have hcs : cs = os ++ t := by
            rw [List.cons_append] at ht
            exact ((List.cons.injEq _ _ _ _).mp ht |>.2).symm
          rw [hcs]
          simp only [List.length_cons, Nat.add_sub_cancel]
          exact List.drop_left os t
        rw [this]
        rfl

theorem splitFirst_some_length {sep l : List Char} {ab : List Char × List Char}
    (hp : sep ≠ []) (h : splitFirst sep l = some ab) :
    ab.2.length < l.length := by
  induction l generalizing ab with
  | nil =>
    rw [splitFirst, if_neg (by simp [List.isEmpty_iff, hp])] at h
    exact absurd h (by simp)
  | cons c cs ih =>
    rw [splitFirst] at h
    split at h
    · simp only [Option.some.injEq] at h
      rw [← h]
      have : 1 ≤ sep.length := by
        cases sep with
        | nil => exact absurd rfl hp
        | cons s ss => simp
      simp only [List.length_drop, List.length_cons]
      omega
    · cases hs : splitFirst sep cs with
      | none => rw [hs] at h; exact absurd h (by simp)
      | some ab' =>
        rw [hs] at h
        simp only [Option.map_some', Option.some.injEq] at h
        have := ih hs
        rw [← h]
        simp only [List.length_cons]
        omega

/-- Fuelled occurrence counter; the remainder of a split is strictly
shorter, so fuel equal to the length of the string suffices. -/
def countSubGo (sep : List Char) : Nat → List Char → Nat
  | 0, _ => 0
  | fuel + 1, l =>
    match splitFirst sep l with
    | none => 0
    | some ab => 1 + countSubGo sep fuel ab.2

/-- Number of non-overlapping, leftmost-first occurrences of a separator
(the quantity `len(s.split(sep)) - 1` in Python). -/
def countSub (sep l : List Char) : Nat := countSubGo sep l.length l

theorem splitFirst_nil_of_ne {sep : List Char} (hp : sep ≠ []) :
    splitFirst sep [] = none := by
  rw [splitFirst, if_neg (by simp [List.isEmpty_iff, hp])]

theorem countSubGo_irrel {sep : List Char} (hp : sep ≠ []) :
    ∀ (f1 : Nat) (l : List Char) (f2 : Nat), l.length ≤ f1 →
      l.length ≤ f2 → countSubGo sep f1 l = countSubGo sep f2 l := by
  intro f1
  induction f1 with
  | zero =>
    intro l f2 h1 _
    have hl : l = [] := List.length_eq_zero.mp (Nat.le_zero.mp h1)
    subst hl
    cases f2 with
    | zero => rfl
    | succ f2' =>
      show 0 = match splitFirst sep [] with
        | none => 0
        | some ab => 1 + countSubGo sep f2' ab.2
      rw [splitFirst_nil_of_ne hp]
  | succ f ih =>
    intro l f2 h1 h2
    cases l with
    | nil =>
      cases f2 with
      | zero =>
        show (match splitFirst sep [] with
            | none => 0
            | some ab => 1 + countSubGo sep f ab.2) = 0
        rw [splitFirst_nil_of_ne hp]
      | succ f2' =>
        show (match splitFirst sep [] with
            | none => 0
            | some ab => 1 + countSubGo sep f ab.2)
          = match splitFirst sep [] with
            | none => 0
            | some ab => 1 + countSubGo sep f2' ab.2
        rw [splitFirst_nil_of_ne hp]
    | cons c cs =>
      cases f2 with
      | zero =>
        exfalso
        simp at h2
      | succ f2' =>
        show (match splitFirst sep (c :: cs) with
            | none => 0
            | some ab => 1 + countSubGo sep f ab.2)
          = match splitFirst sep (c :: cs) with
            | none => 0
            | some ab => 1 + countSubGo sep f2' ab.2
        cases h : splitFirst sep (c :: cs) with
        | none => rfl
        | some ab =>
          have hlt := splitFirst_some_length hp h
          simp only [List.length_cons] at hlt h1 h2
          simp only
          rw [ih ab.2 f2' (by omega) (by omega)]

theorem countSub_eq {sep : List Char} (hp : sep ≠ []) (l : List Char) :
    countSub sep l =
      match splitFirst sep l with
      | none => 0
      | some ab => 1 + countSub sep ab.2 := by
  unfold countSub
  cases l with
  | nil =>
    rw [splitFirst_nil_of_ne hp]
    rfl
  | cons c cs =>
    show (match splitFirst sep (c :: cs) with
        | none => 0
        | some ab => 1 + countSubGo sep cs.length ab.2) = _
    cases h : splitFirst sep (c :: cs) with
    | none => rfl
    | some ab =>
      have hlt := splitFirst_some_length hp h
      simp only [List.length_cons] at hlt
      simp only
      rw [countSubGo_irrel hp cs.length ab.2 ab.2.length (by omega)
        (Nat.le_refl _)]

theorem pySplitMax_length {sep : List Char} (hp : sep ≠ []) (n : Nat) :
    ∀ l, (pySplitMax sep n l).length = min (countSub sep l) n + 1 := by
  induction n with
  | zero => intro l; simp [pySplitMax]
  | succ n ih =>
    intro l
    rw [pySplitMax]
    cases h : splitFirst sep l with
    | none =>
      rw [countSub_eq hp, h]
      simp
    | some ab =>
      rw [countSub_eq hp, h]
      simp only [List.length_cons, ih ab.2]
      rw [Nat.add_comm 1 (countSub sep ab.2), Nat.succ_min_succ]

theorem dictLookup_foldl (k : List Char) (m : List (List Char × List Char)) :
    ∀ acc, m.foldl (fun acc p => if p.1 = k then some p.2 else acc) acc =
      match dictLookup m k with
      | some v => some v
      | none => acc := by
  induction m with
  | nil => intro acc; rfl
  | cons p m' ih =>
    intro acc
    by_cases hp : p.1 = k
    · have h1 : (p :: m').foldl
          (fun acc q => if q.1 = k then some q.2 else acc) acc
            = m'.foldl (fun acc q => if q.1 = k then some q.2 else acc)
              (some p.2) := by
        simp [hp]
      have h2 : dictLookup (p :: m') k
          = m'.foldl (fun acc q => if q.1 = k then some q.2 else acc)
              (some p.2) := by
        simp [dictLookup, hp]
      rw [h1, h2, ih (some p.2)]
      cases dictLookup m' k <;> rfl
    · have h1 : (p :: m').foldl
          (fun acc q => if q.1 = k then some q.2 else acc) acc
            = m'.foldl (fun acc q => if q.1 = k then some q.2 else acc) acc := by
        simp [hp]
      have h2 : dictLookup (p :: m') k = dictLookup m' k := by
        simp [dictLookup, hp]
      rw [h1, h2, ih acc]

theorem dictLookup_append (m1 m2 : List (List Char × List Char))
    (k : List Char) :
    dictLookup (m1 ++ m2) k =
      match dictLookup m2 k with
      | some v => some v
      | none => dictLookup m1 k := by
  unfold dictLookup
  rw [List.foldl_append]
  exact dictLookup_foldl k m2 _

theorem dropWhile_append_all {p : Char → Bool} {s : List Char}
    (t : List Char) (hs : ∀ c ∈ s, p c = true) :
    (s ++ t).dropWhile p = t.dropWhile p := by
  induction s with
  | nil => rfl
  | cons a s' ih =>
    rw [List.cons_append, List.dropWhile_cons,
      if_pos (hs a (List.mem_cons_self a s'))]
    exact ih fun c hc => hs c (List.mem_cons_of_mem a hc)

theorem dropWhile_cons_neg {p : Char → Bool} {c : Char} {cs : List Char}
    (h : p c = false) : (c :: cs).dropWhile p = c :: cs := by
  rw [List.dropWhile_cons, if_neg (by simp [h])]

theorem dropWhile_head_not {p : Char → Bool} {l : List Char} {c : Char}
    (h : (l.dropWhile p).head? = some c) : p c = false := by
  induction l with
  | nil => simp [List.dropWhile] at h
  | cons a as ih =>
    rw [List.dropWhile_cons] at h
    by_cases hpa : p a = true
    · rw [if_pos hpa] at h
      exact ih h
    · rw [if_neg hpa] at h
      simp only [List.head?_cons, Option.some.injEq] at h
      rw [← h]
      exact Bool.eq_false_iff.mpr hpa

theorem stripStart_eq_self {p : Char → Bool} {l : List Char}
    (h : ∀ c, l.head? = some c → p c = false) : stripStart p l = l := by
  cases l with
  | nil => rfl
  | cons c cs => exact dropWhile_cons_neg (h c rfl)

theorem stripEnd_eq_self {p : Char → Bool} {l : List Char}
    (h : ∀ c, l.getLast? = some c → p c = false) : stripEnd p l = l := by
  unfold stripEnd
  have hd : l.reverse.dropWhile p = l.reverse := by
    cases hr : l.reverse with
    | nil => rfl
    | cons c cs =>
      apply dropWhile_cons_neg
      apply h
      rw [← List.head?_reverse l, hr]
      rfl
  rw [hd, List.reverse_reverse]

theorem stripWith_eq_self {p : Char → Bool} {l : List Char}
    (hh : ∀ c, l.head? = some c → p c = false)
    (hl : ∀ c, l.getLast? = some c → p c = false) : stripWith p l = l := by
  unfold stripWith
  rw [stripStart_eq_self hh]
  exact stripEnd_eq_self hl

theorem stripEnd_isPre (p : Char → Bool) (l : List Char) :
    stripEnd p l <+: l := by
  have h := List.dropWhile_suffix (l := l.reverse) p
  have h2 := (@List.reverse_prefix Char (l.reverse.dropWhile p)
    l.reverse).mpr h
  simpa [stripEnd] using h2

theorem stripEnd_ne_nil {p : Char → Bool} {c : Char} {w : List Char}
    (hp : p c = false) : stripEnd p (c :: w) ≠ [] := by
  intro h
  unfold stripEnd at h
  rw [List.reverse_eq_nil_iff] at h
  have := List.dropWhile_eq_nil_iff.mp h c (by simp)
  rw [hp] at this
  exact absurd this (by simp)

theorem stripEnd_cons_head {p : Char → Bool} {c : Char} {w : List Char}
    (hp : p c = false) : ∃ w', stripEnd p (c :: w) = c :: w' := by
  have h1 := stripEnd_isPre p (c :: w)
  cases he : stripEnd p (c :: w) with
  | nil => exact absurd he (stripEnd_ne_nil hp)
  | cons d w' =>
    rw [he] at h1
    obtain ⟨hd, -⟩ := List.cons_prefix_cons.mp h1
    exact ⟨w', by rw [hd]⟩

theorem stripWith_cons_head {p : Char → Bool} {c : Char} {w : List Char}
    (hp : p c = false) : ∃ w', stripWith p (c :: w) = c :: w' := by
  unfold stripWith
  rw [stripStart_eq_self (fun d hd => by
    simp only [List.head?_cons, Option.some.injEq] at hd
    rw [← hd]; exact hp)]
  exact stripEnd_cons_head hp

/-- Stripping a string that is all-stripped material around a core `x`
with non-strippable edges yields exactly `x`. -/
theorem stripWith_sandwich {p : Char → Bool} {a x b : List Char}
    (ha : ∀ c ∈ a, p c = true) (hb : ∀ c ∈ b, p c = true)
    (hxh : ∀ c, x.head? = some c → p c = false)
    (hxl : ∀ c, x.getLast? = some c → p c = false)
    (hx : x ≠ []) :
    stripWith p (a ++ (x ++ b)) = x := by
  unfold stripWith
  have h1 : stripStart p (a ++ (x ++ b)) = x ++ b := by
    unfold stripStart
    rw [dropWhile_append_all _ ha]
    cases x with
    | nil => exact absurd rfl hx
    | cons xh xt =>
      rw [List.cons_append]
      exact dropWhile_cons_neg (hxh xh rfl)
  rw [h1]
  unfold stripEnd
  rw [List.reverse_append,
    dropWhile_append_all _ (fun c hc => hb c (List.mem_reverse.mp hc))]
  have h2 : x.reverse.dropWhile p = x.reverse := by
    cases hr : x.reverse with
    | nil => rfl
    | cons c cs =>
      apply dropWhile_cons_neg
      apply hxl
      rw [← List.head?_reverse x, hr]
      rfl
  rw [h2, List.reverse_reverse]

theorem stripWith_head_not {p : Char → Bool} {l : List Char} {c : Char}
    (h : (stripWith p l).head? = some c) : p c = false := by
  unfold stripWith at h
  have hpre := stripEnd_isPre p (stripStart p l)
  cases he : stripEnd p (stripStart p l) with
  | nil => rw [he] at h; simp at h
  | cons d w' =>
    rw [he] at h hpre
    simp only [List.head?_cons, Option.some.injEq] at h
    cases hs : stripStart p l with
    | nil => rw [hs] at hpre; simp at hpre
    | cons e es =>
      rw [hs] at hpre
      obtain ⟨hd, -⟩ := List.cons_prefix_cons.mp hpre
      apply dropWhile_head_not (p := p) (l := l)
      rw [← h, hd]
      show (stripStart p l).head? = some e
      rw [hs]
      rfl

theorem stripWith_getLast_not {p : Char → Bool} {l : List Char} {c : Char}
    (h : (stripWith p l).getLast? = some c) : p c = false := by
  unfold stripWith stripEnd at h
  rw [List.getLast?_reverse] at h
  exact dropWhile_head_not h

theorem stripWith_idem (p : Char → Bool) (l : List Char) :
    stripWith p (stripWith p l) = stripWith p l :=
  stripWith_eq_self (fun _ h => stripWith_head_not h)
    (fun _ h => stripWith_getLast_not h)

theorem splitLines_no_newline {x : List Char} (h : '\n' ∉ x) :
    splitLines x = [x] := by
  induction x with
  | nil => rfl
  | cons c cs ih =>
    have hc : ¬ c = '\n' := fun hcc => h (hcc ▸ List.mem_cons_self c cs)
    rw [splitLines, if_neg hc, ih fun hm => h (List.mem_cons_of_mem c hm)]

theorem splitLines_append_newline {x : List Char} (y : List Char)
    (h : '\n' ∉ x) : splitLines (x ++ '\n' :: y) = x :: splitLines y := by
  induction x with
  | nil => simp [splitLines]
  | cons c cs ih =>
    have hc : ¬ c = '\n' := fun hcc => h (hcc ▸ List.mem_cons_self c cs)
    rw [List.cons_append, splitLines, if_neg hc,
      ih fun hm => h (List.mem_cons_of_mem c hm)]

theorem flattenLines_cons_cons (l l2 : List Char) (r : List (List Char)) :
    flattenLines (l :: l2 :: r) = l ++ '\n' :: flattenLines (l2 :: r) := rfl

theorem splitLines_flattenLines :
    ∀ {ls : List (List Char)}, ls ≠ [] → (∀ l ∈ ls, '\n' ∉ l) →
      splitLines (flattenLines ls) = ls := by
  intro ls
  induction ls with
  | nil => intro h; exact absurd rfl h
  | cons l rest ih =>
    intro _ h
    cases rest with
    | nil => exact splitLines_no_newline (h l (List.mem_cons_self _ _))
    | cons l2 r2 =>
      rw [flattenLines_cons_cons,
        splitLines_append_newline _ (h l (List.mem_cons_self _ _)),
        ih (by simp) fun m hm => h m (List.mem_cons_of_mem l hm)]

theorem flattenLines_append_single {ls : List (List Char)} (x : List Char)
    (hne : ls ≠ []) :
    flattenLines (ls ++ [x]) = flattenLines ls ++ '\n' :: x := by
  induction ls with
  | nil => exact absurd rfl hne
  | cons l rest ih =>
    cases rest with
    | nil => rfl
    | cons l2 r2 =>
      show flattenLines (l :: (l2 :: r2 ++ [x]))
        = flattenLines (l :: l2 :: r2) ++ '\n' :: x
      rw [show (l2 :: r2) ++ [x] = l2 :: (r2 ++ [x]) from rfl] at ih
      rw [show l :: (l2 :: r2 ++ [x]) = l :: l2 :: (r2 ++ [x]) from rfl,
        flattenLines_cons_cons, flattenLines_cons_cons, ih (by simp),
        List.append_assoc]
      rfl

theorem mem_flattenLines {ls : List (List Char)} {c : Char}
    (h : c ∈ flattenLines ls) : c = '\n' ∨ ∃ l ∈ ls, c ∈ l := by
  induction ls with
  | nil => simp [flattenLines] at h
  | cons l rest ih =>
    cases rest with
    | nil =>
      right
      exact ⟨l, List.mem_cons_self _ _, h⟩
    | cons l2 r2 =>
      rw [flattenLines_cons_cons] at h
      rcases List.mem_append.mp h with h1 | h2
      · exact Or.inr ⟨l, List.mem_cons_self _ _, h1⟩
      · rcases List.mem_cons.mp h2 with h3 | h4
        · exact Or.inl h3
        · rcases ih h4 with h5 | ⟨m, hm, hcm⟩
          · exact Or.inl h5
          · exact Or.inr ⟨m, List.mem_cons_of_mem l hm, hcm⟩

/-! ### Character classes of the rendered date strings -/

/-- The ten decimal digit characters. -/
def tenDigits : List Char := "0123456789".toList

theorem digitChar_mem (d : Nat) : digitChar d ∈ tenDigits := by
  have h : d % 10 < 10 := Nat.mod_lt _ (by omega)
  unfold digitChar
  interval_cases h : d % 10 <;> decide

theorem natCharsAux_mem :
    ∀ (fuel n : Nat) (acc : List Char) (c : Char), c ∈ natCharsAux fuel n acc →
      c ∈ acc ∨ c ∈ tenDigits := by
  intro fuel
  induction fuel with
  | zero =>
    intro n acc c hc
    cases n with
    | zero => exact Or.inl hc
    | succ m => exact Or.inl hc
  | succ f ih =>
    intro n acc c hc
    cases n with
    | zero => exact Or.inl hc
    | succ m =>
      rw [natCharsAux] at hc
      rcases ih _ _ c hc with h1 | h2
      · rcases List.mem_cons.mp h1 with h3 | h4
        · exact Or.inr (h3 ▸ digitChar_mem _)
        · exact Or.inl h4
      · exact Or.inr h2

theorem natCharsAux_acc_mem :
    ∀ (fuel n : Nat) (acc : List Char) (c : Char), c ∈ acc →
      c ∈ natCharsAux fuel n acc := by
  intro fuel
  induction fuel with
  | zero =>
    intro n acc c hc
    cases n with
    | zero => exact hc
    | succ m => exact hc
  | succ f ih =>
    intro n acc c hc
    cases n with
    | zero => exact hc
    | succ m =>
      rw [natCharsAux]
      exact ih _ _ c (List.mem_cons_of_mem _ hc)

theorem natToChars_mem {n : Nat} {c : Char} (h : c ∈ natToChars n) :
    c ∈ tenDigits := by
  unfold natToChars at h
  split at h
  · rcases List.mem_singleton.mp h with rfl
    decide
  · rcases natCharsAux_mem n n [] c h with h1 | h2
    · simp at h1
    · exact h2

theorem natToChars_ne_nil (n : Nat) : natToChars n ≠ [] := by
  unfold natToChars
  split
  · simp
  · intro h
    have hn : ¬ n = 0 := by assumption
    match n, hn with
    | m + 1, _ =>
      rw [natCharsAux] at h
      have hmem : digitChar ((m + 1) % 10) ∈ natCharsAux m ((m + 1) / 10)
          [digitChar ((m + 1) % 10)] :=
        natCharsAux_acc_mem _ _ _ _ (List.mem_cons_self _ _)
      rw [h] at hmem
      exact absurd hmem (by simp)

theorem pad2_mem {n : Nat} {c : Char} (h : c ∈ pad2 n) : c ∈ tenDigits := by
  unfold pad2 at h
  rcases List.mem_append.mp h with h1 | h2
  · rw [List.eq_of_mem_replicate h1]; decide
  · exact natToChars_mem h2

theorem pad4_mem {n : Nat} {c : Char} (h : c ∈ pad4 n) : c ∈ tenDigits := by
  unfold pad4 at h
  rcases List.mem_append.mp h with h1 | h2
  · rw [List.eq_of_mem_replicate h1]; decide
  · exact natToChars_mem h2

theorem pad2_ne_nil (n : Nat) : pad2 n ≠ [] := by
  unfold pad2
  intro h
  rcases List.append_eq_nil.mp h with ⟨-, h2⟩
  exact natToChars_ne_nil n h2

theorem pad4_ne_nil (n : Nat) : pad4 n ≠ [] := by
  unfold pad4
  intro h
  rcases List.append_eq_nil.mp h with ⟨-, h2⟩
  exact natToChars_ne_nil n h2

/-- Every character of every month name. -/
def monthChars : List Char :=
  "JanuaryFebruaryMarchAprilMayJuneJulyAugustSeptemberOctoberNovemberDecember".toList

theorem monthName_mem {m : Nat} {c : Char} (h : c ∈ monthName m) :
    c ∈ monthChars := by
  unfold monthName at h
  rcases hg : (monthTable.get? (m - 1)) with - | v
  · rw [List.getD, hg] at h
    simp at h
  · rw [List.getD, hg] at h
    simp only [Option.getD_some] at h
    have hv : v ∈ monthTable := List.get?_mem hg
    revert h
    revert c
    fin_cases hv <;> decide

/-- Characters that can appear in `strftime("%B %-d, %Y")` output. -/
def fmtLongChars : List Char := monthChars ++ tenDigits ++ " ,".toList

theorem fmtLong_mem {d : PyDate} {c : Char} (h : c ∈ fmtLong d) :
    c ∈ fmtLongChars := by
  have hsplit : c ∈ monthName d.month ∨ c ∈ natToChars d.day ∨
      c ∈ pad4 d.year ∨ c = ' ' ∨ c = ',' := by
    unfold fmtLong at h
    simp only [List.mem_append, List.mem_cons] at h
    tauto
  unfold fmtLongChars
  rcases hsplit with h1 | h1 | h1 | h1 | h1
  · exact List.mem_append_left _ (List.mem_append_left _ (monthName_mem h1))
  · exact List.mem_append_left _ (List.mem_append_right _ (natToChars_mem h1))
  · exact List.mem_append_left _ (List.mem_append_right _ (pad4_mem h1))
  · exact List.mem_append_right _ (by rw [h1]; decide)
  · exact List.mem_append_right _ (by rw [h1]; decide)

/-- Characters that can appear in `strftime("%Y-%m-%d")` output. -/
def fmtYmdChars : List Char := tenDigits ++ ['-']

theorem fmtYmd_mem {d : PyDate} {c : Char} (h : c ∈ fmtYmd d) :
    c ∈ fmtYmdChars := by
  have hsplit : c ∈ pad4 d.year ∨ c ∈ pad2 d.month ∨ c ∈ pad2 d.day ∨
      c = '-' := by
    unfold fmtYmd at h
    simp only [List.mem_append, List.mem_cons] at h
    tauto
  unfold fmtYmdChars
  rcases hsplit with h1 | h1 | h1 | h1
  · exact List.mem_append_left _ (pad4_mem h1)
  · exact List.mem_append_left _ (pad2_mem h1)
  · exact List.mem_append_left _ (pad2_mem h1)
  · exact List.mem_append_right _ (by rw [h1]; decide)

/-! ### Dashes: occurrences of `---` -/

/-- The `---` delimiter. -/
def dashes : List Char := "---".toList

/-- No two adjacent dashes anywhere. -/
def noDD : List Char → Bool
  | [] => true
  | [_] => true
  | a :: b :: r => !(a = '-' && b = '-') && noDD (b :: r)

theorem noDD_tail {a : Char} {r : List Char} (h : noDD (a :: r) = true) :
    noDD r = true := by
  cases r with
  | nil => rfl
  | cons b t =>
    rw [noDD, Bool.and_eq_true] at h
    exact h.2

theorem noDD_of_not_mem {l : List Char} (h : '-' ∉ l) : noDD l = true := by
  induction l with
  | nil => rfl
  | cons a r ih =>
    cases r with
    | nil => rfl
    | cons b t =>
      rw [noDD, Bool.and_eq_true]
      constructor
      · have ha : ¬ a = '-' := fun hc => h (hc ▸ List.mem_cons_self _ _)
        simp [ha]
      · exact ih fun hm => h (List.mem_cons_of_mem a hm)

theorem noDD_append {x y : List Char} (hx : noDD x = true)
    (hy : noDD y = true)
    (hxy : ∀ a b, x.getLast? = some a → y.head? = some b →
      ¬(a = '-' ∧ b = '-')) : noDD (x ++ y) = true := by
  induction x with
  | nil => simpa using hy
  | cons a x' ih =>
    cases x' with
    | nil =>
      cases y with
      | nil => rfl
      | cons b t =>
        show noDD (a :: b :: t) = true
        rw [noDD, Bool.and_eq_true]
        refine ⟨?_, hy⟩
        have := hxy a b rfl rfl
        simp only [Bool.not_eq_true', Bool.and_eq_false_iff]
        by_cases ha : a = '-'
        · by_cases hb : b = '-'
          · exact absurd ⟨ha, hb⟩ this
          · exact Or.inr (by simp [hb])
        · exact Or.inl (by simp [ha])
    | cons c x'' =>
      show noDD (a :: c :: (x'' ++ y)) = true
      rw [noDD, Bool.and_eq_true]
      rw [noDD, Bool.and_eq_true] at hx
      refine ⟨hx.1, ?_⟩
      exact ih hx.2 fun p q hp hq =>
        hxy p q (by rw [List.getLast?_cons_cons]; exact hp) hq

theorem containsSub_dashes_eq_false_of_noDD {l : List Char}
    (h : noDD l = true) : containsSub dashes l = false := by
  induction l with
  | nil => rfl
  | cons c cs ih =>
    have h1 : dashes.isPrefixOf (c :: cs) = false := by
      cases hpre : dashes.isPrefixOf (c :: cs)
      · rfl
      · exfalso
        obtain ⟨t, ht⟩ := List.isPrefixOf_iff_prefix.mp hpre
        have : c :: cs = '-' :: '-' :: '-' :: t := by rw [← ht]; rfl
        rw [this] at h
        rw [noDD] at h
        simp at h
    rw [containsSub, h1, Bool.false_or]
    exact ih (noDD_tail h)

theorem head?_append_left {x : List Char} (y : List Char) (hx : x ≠ []) :
    (x ++ y).head? = x.head? := by
  cases x with
  | nil => exact absurd rfl hx
  | cons a as => rfl

theorem containsSub_cons_of_not_mem {p : List Char} {c : Char}
    (cs : List Char) (hp : p ≠ []) (hne : c ∉ p) :
    containsSub p (c :: cs) = containsSub p cs := by
  cases p with
  | nil => exact absurd rfl hp
  | cons q qs =>
    have hq : ¬ q = c := fun h => hne (h ▸ List.mem_cons_self q qs)
    show (((q :: qs).isPrefixOf (c :: cs)) || containsSub (q :: qs) cs)
      = containsSub (q :: qs) cs
    have : (q :: qs).isPrefixOf (c :: cs) = false := by
      cases hpre : (q :: qs).isPrefixOf (c :: cs)
      · rfl
      · obtain ⟨hqc, -⟩ :=
          List.cons_prefix_cons.mp (List.isPrefixOf_iff_prefix.mp hpre)
        exact absurd hqc hq
    rw [this, Bool.false_or]

theorem containsSub_flattenLines_false {p : List Char} (hp : p ≠ [])
    (hnl : '\n' ∉ p) :
    ∀ {ls : List (List Char)}, (∀ l ∈ ls, containsSub p l = false) →
      containsSub p (flattenLines ls) = false := by
  intro ls
  induction ls with
  | nil =>
    intro _
    show containsSub p [] = false
    cases p with
    | nil => exact absurd rfl hp
    | cons q qs => rfl
  | cons l rest ih =>
    intro h
    cases rest with
    | nil => exact h l (List.mem_cons_self _ _)
    | cons l2 r2 =>
      rw [flattenLines_cons_cons,
        containsSub_append_head hp
          (fun c hc => by
            simp only [List.head?_cons, Option.some.injEq] at hc
            rw [← hc]
            exact hnl),
        h l (List.mem_cons_self _ _),
        containsSub_cons_of_not_mem _ hp hnl,
        ih fun m hm => h m (List.mem_cons_of_mem l hm)]
      rfl

theorem flattenLines_ne_nil_of_shape {l l2 : List Char}
    {r : List (List Char)} (hl : l ≠ []) :
    flattenLines (l :: l2 :: r) ≠ [] ∧ flattenLines [l] ≠ [] := by
  constructor
  · rw [flattenLines_cons_cons]
    intro h
    rcases List.append_eq_nil.mp h with ⟨-, h2⟩
    exact absurd h2 (by simp)
  · exact hl

theorem flattenLines_getLast_prop (P : Char → Prop) :
    ∀ {ls : List (List Char)}, (∀ l ∈ ls, l ≠ []) →
      (∀ l ∈ ls, ∀ c, l.getLast? = some c → P c) →
      ∀ c, (flattenLines ls).getLast? = some c → P c := by
  intro ls
  induction ls with
  | nil =>
    intro _ _ c hc
    simp [flattenLines] at hc
  | cons l rest ih =>
    intro hne h c hc
    cases rest with
    | nil => exact h l (List.mem_cons_self _ _) c hc
    | cons l2 r2 =>
      rw [flattenLines_cons_cons] at hc
      have hF : flattenLines (l2 :: r2) ≠ [] := by
        cases r2 with
        | nil => exact hne l2 (List.mem_cons_of_mem l (List.mem_cons_self _ _))
        | cons l3 r3 =>
          exact (flattenLines_ne_nil_of_shape
            (hne l2 (List.mem_cons_of_mem l (List.mem_cons_self _ _)))).1
      rw [List.getLast?_append_of_ne_nil _ (by simp)] at hc
      rw [show ('\n' :: flattenLines (l2 :: r2))
          = ['\n'] ++ flattenLines (l2 :: r2) from rfl,
        List.getLast?_append_of_ne_nil _ hF] at hc
      exact ih (fun m hm => hne m (List.mem_cons_of_mem l hm))
        (fun m hm => h m (List.mem_cons_of_mem l hm)) c hc

theorem tenDigits_not_space {c : Char} (h : c ∈ tenDigits) :
    pyIsSpace c = false := by
  fin_cases h <;> decide

theorem tenDigits_not_dash {c : Char} (h : c ∈ tenDigits) : c ∉ dashes := by
  fin_cases h <;> decide

/-! ### Per-line facts about generated frontmatter lines -/

theorem titleLine_no_dashes (d : PyDate) :
    containsSub dashes (titleLine d) = false := by
  apply containsSub_eq_false_of_not_mem (c := '-') (by decide)
  intro h
  unfold titleLine at h
  rcases List.mem_append.mp h with h1 | h2
  · rcases List.mem_append.mp h1 with h3 | h4
    · exact absurd h3 (by decide)
    · exact absurd (fmtLong_mem h4) (by decide)
  · exact absurd h2 (by decide)

theorem titleLine_no_mpPat (d : PyDate) :
    containsSub mpPat (titleLine d) = false := by
  apply containsSub_eq_false_of_not_mem (c := '_') (by decide)
  intro h
  unfold titleLine at h
  rcases List.mem_append.mp h with h1 | h2
  · rcases List.mem_append.mp h1 with h3 | h4
    · exact absurd h3 (by decide)
    · exact absurd (fmtLong_mem h4) (by decide)
  · exact absurd h2 (by decide)

theorem titleLine_no_newline (d : PyDate) : '\n' ∉ titleLine d := by
  intro h
  unfold titleLine at h
  rcases List.mem_append.mp h with h1 | h2
  · rcases List.mem_append.mp h1 with h3 | h4
    · exact absurd h3 (by decide)
    · exact absurd (fmtLong_mem h4) (by decide)
  · exact absurd h2 (by decide)

theorem dateLine_no_mpPat (d : PyDate) :
    containsSub mpPat (dateLine d) = false := by
  apply containsSub_eq_false_of_not_mem (c := '_') (by decide)
  intro h
  unfold dateLine at h
  rcases List.mem_append.mp h with h1 | h2
  · exact absurd h1 (by decide)
  · exact absurd (fmtYmd_mem h2) (by decide)

theorem dateLine_no_newline (d : PyDate) : '\n' ∉ dateLine d := by
  intro h
  unfold dateLine at h
  rcases List.mem_append.mp h with h1 | h2
  · exact absurd h1 (by decide)
  · exact absurd (fmtYmd_mem h2) (by decide)

theorem pad_head_digit {n : Nat} {x : List Char} {c : Char}
    (hx : x = pad2 n ∨ x = pad4 n) (h : x.head? = some c) : c ∈ tenDigits := by
  have hm : c ∈ x := List.mem_of_mem_head? h
  rcases hx with rfl | rfl
  · exact pad2_mem hm
  · exact pad4_mem hm

theorem dateLine_no_dashes (d : PyDate) :
    containsSub dashes (dateLine d) = false := by
  apply containsSub_dashes_eq_false_of_noDD
  have hA : noDD ("date: ".toList ++ pad4 d.year) = true := by
    apply noDD_of_not_mem
    intro h
    rcases List.mem_append.mp h with h1 | h2
    · exact absurd h1 (by decide)
    · exact absurd (pad4_mem h2) (by decide)
  have hshape : dateLine d
      = ("date: ".toList ++ pad4 d.year) ++
        (['-'] ++ (pad2 d.month ++ (['-'] ++ pad2 d.day))) := by
    unfold dateLine fmtYmd
    simp [List.append_assoc]
  rw [hshape]
  apply noDD_append hA
  · apply noDD_append (by rfl)
    · apply noDD_append
      · exact noDD_of_not_mem fun h => absurd (pad2_mem h) (by decide)
      · apply noDD_append (by rfl)
        · exact noDD_of_not_mem fun h => absurd (pad2_mem h) (by decide)
        · intro a b ha hb
          have hbd : b ∈ tenDigits := pad_head_digit (Or.inl rfl) hb
          intro hab
          have := tenDigits_not_dash hbd
          rw [hab.2] at this
          exact this (by decide)
      · intro a b ha hb
        have had : a ∈ tenDigits := pad2_mem (List.mem_of_mem_getLast? ha)
        intro hab
        have := tenDigits_not_dash had
        rw [hab.1] at this
        exact this (by decide)
    · intro a b ha hb
      simp only [List.getLast?_singleton, Option.some.injEq] at ha
      have hbd : b ∈ tenDigits :=
        pad_head_digit (Or.inl rfl) ((head?_append_left _ (pad2_ne_nil _)) ▸ hb)
      intro hab
      have := tenDigits_not_dash hbd
      rw [hab.2] at this
      exact this (by decide)
  · intro a b ha hb
    have had : a ∈ tenDigits := by
      rw [List.getLast?_append_of_ne_nil _ (pad4_ne_nil d.year)] at ha
      exact pad4_mem (List.mem_of_mem_getLast? ha)
    intro hab
    have := tenDigits_not_dash had
    rw [hab.1] at this
    exact this (by decide)

/-- Edge conditions under which a frontmatter value survives the parser's
`strip` and quote-stripping untouched: non-empty, with non-whitespace,
non-quote characters at both ends. -/
def cleanEdge (u : List Char) : Bool :=
  match u.head?, u.getLast? with
  | some h, some l =>
    !pyIsSpace h && !(h = '"') && !pyIsSpace l && !(l = '"')
  | _, _ => false

/-- A remote-identifier value that round-trips through the frontmatter:
no newline, no `---` occurrence, clean edges. -/
def cleanValue (u : List Char) : Prop :=
  '\n' ∉ u ∧ containsSub dashes u = false ∧ cleanEdge u = true

/-- A category value that does not break the frontmatter block. -/
def cleanCat (cat : List Char) : Prop :=
  '\n' ∉ cat ∧ containsSub dashes cat = false

theorem cleanEdge_ne_nil {u : List Char} (h : cleanEdge u = true) : u ≠ [] := by
  intro hu
  rw [hu] at h
  exact absurd h (by decide)

theorem cleanEdge_head {u : List Char} (h : cleanEdge u = true) :
    ∀ c, u.head? = some c → pyIsSpace c = false ∧ ¬ c = '"' := by
  intro c hc
  unfold cleanEdge at h
  rw [hc] at h
  rcases hl : u.getLast? with - | lc
  · rw [hl] at h
    exact absurd h (by simp)
  · rw [hl] at h
    simp only [Bool.and_eq_true, Bool.not_eq_true'] at h
    exact ⟨h.1.1.1, by simpa using h.1.1.2⟩

theorem cleanEdge_getLast {u : List Char} (h : cleanEdge u = true) :
    ∀ c, u.getLast? = some c → pyIsSpace c = false ∧ ¬ c = '"' := by
  intro c hc
  unfold cleanEdge at h
  rw [hc] at h
  rcases hh : u.head? with - | hc2
  · rw [hh] at h
    exact absurd h (by simp)
  · rw [hh] at h
    simp only [Bool.and_eq_true, Bool.not_eq_true'] at h
    exact ⟨h.1.2, by simpa using h.2⟩

theorem catLine2_no_dashes {cat : List Char}
    (hcat : containsSub dashes cat = false) :
    containsSub dashes ("- \"".toList ++ (cat ++ ['"'])) = false := by
  rw [containsSub_append_last (by decide)
    (fun c hc => by
      have : c = '"' := by
        have h2 : ("- \"".toList).getLast? = some '"' := by decide
        rw [h2] at hc
        exact (Option.some.injEq _ _).mp hc.symm
      rw [this]
      decide)]
  rw [containsSub_append_head (by decide)
    (fun c hc => by
      simp only [List.head?_cons, Option.some.injEq] at hc
      rw [← hc]
      decide)]
  rw [hcat]
  decide

theorem catLine2_no_mpPat {cat : List Char}
    (hcat : containsSub mpPat cat = false) :
    containsSub mpPat ("- \"".toList ++ (cat ++ ['"'])) = false := by
  rw [containsSub_append_last (by decide)
    (fun c hc => by
      have : c = '"' := by
        have h2 : ("- \"".toList).getLast? = some '"' := by decide
        rw [h2] at hc
        exact (Option.some.injEq _ _).mp hc.symm
      rw [this]
      decide)]
  rw [containsSub_append_head (by decide)
    (fun c hc => by
      simp only [List.head?_cons, Option.some.injEq] at hc
      rw [← hc]
      decide)]
  rw [hcat]
  decide

theorem mpLine_no_dashes {u : List Char}
    (hu : containsSub dashes u = false) :
    containsSub dashes (mpColonSpace ++ u) = false := by
  rw [containsSub_append_last (by decide)
    (fun c hc => by
      have : c = ' ' := by
        have h2 : mpColonSpace.getLast? = some ' ' := by decide
        rw [h2] at hc
        exact (Option.some.injEq _ _).mp hc.symm
      rw [this]
      decide)]
  rw [hu]
  decide

theorem catLines_mem {cat l : List Char} (h : l ∈ catLines cat) :
    l = "categories:".toList ∨ l = "- \"".toList ++ cat ++ ['\"'] := by
  unfold catLines at h
  split at h
  · simp at h
  · rcases List.mem_cons.mp h with rfl | h2
    · exact Or.inl rfl
    · exact Or.inr (List.mem_singleton.mp h2)

theorem mpLines_mem {murl : Option (List Char)} {l : List Char}
    (h : l ∈ mpLines murl) :
    ∃ u, murl = some u ∧ u ≠ [] ∧ l = mpColonSpace ++ u := by
  rcases murl with - | u
  · simp [mpLines] at h
  · by_cases hu : u.isEmpty
    · simp [mpLines, hu] at h
    · rw [show mpLines (some u) = [mpColonSpace ++ u] from by
        simp only [mpLines]
        rw [if_neg hu]] at h
      exact ⟨u, rfl, fun he => hu (by rw [he]; rfl),
        List.mem_singleton.mp h⟩

theorem fmLines_mem {d : PyDate} {murl : Option (List Char)}
    {cat l : List Char} (h : l ∈ fmLines d murl cat) :
    l = titleLine d ∨ l = dateLine d ∨ l = typeLine ∨
      l = "categories:".toList ∨ l = "- \"".toList ++ cat ++ ['\"'] ∨
      ∃ u, murl = some u ∧ u ≠ [] ∧ l = mpColonSpace ++ u := by
  unfold fmLines at h
  rcases List.mem_append.mp h with h1 | h2
  · rcases List.mem_append.mp h1 with h3 | h4
    · rcases List.mem_cons.mp h3 with rfl | h5
      · exact Or.inl rfl
      · rcases List.mem_cons.mp h5 with rfl | h6
        · exact Or.inr (Or.inl rfl)
        · rcases List.mem_singleton.mp h6 with rfl
          exact Or.inr (Or.inr (Or.inl rfl))
    · rcases catLines_mem h4 with h7 | h7
      · exact Or.inr (Or.inr (Or.inr (Or.inl h7)))
      · exact Or.inr (Or.inr (Or.inr (Or.inr (Or.inl h7))))
  · exact Or.inr (Or.inr (Or.inr (Or.inr (Or.inr (mpLines_mem h2)))))

/-- All lines of the generated frontmatter contain no newline. -/
theorem fmLines_no_newline {d : PyDate} {murl : Option (List Char)}
    {cat : List Char} (hcat : '\n' ∉ cat)
    (hmurl : ∀ u, murl = some u → '\n' ∉ u) :
    ∀ l ∈ fmLines d murl cat, '\n' ∉ l := by
  intro l hl
  rcases fmLines_mem hl with rfl | rfl | rfl | rfl | rfl | ⟨u, hm, -, rfl⟩
  · exact titleLine_no_newline d
  · exact dateLine_no_newline d
  · decide
  · decide
  · intro hm
    rcases List.mem_append.mp hm with h8 | h9
    · rcases List.mem_append.mp h8 with h10 | h11
      · exact absurd h10 (by decide)
      · exact hcat h11
    · exact absurd h9 (by decide)
  · intro hmem
    rcases List.mem_append.mp hmem with h8 | h9
    · exact absurd h8 (by decide)
    · exact hmurl u hm h9

/-- No line of the generated frontmatter contains `---`. -/
theorem fmLines_no_dashes {d : PyDate} {murl : Option (List Char)}
    {cat : List Char} (hcat : containsSub dashes cat = false)
    (hmurl : ∀ u, murl = some u → containsSub dashes u = false) :
    ∀ l ∈ fmLines d murl cat, containsSub dashes l = false := by
  intro l hl
  rcases fmLines_mem hl with rfl | rfl | rfl | rfl | rfl | ⟨u, hm, -, rfl⟩
  · exact titleLine_no_dashes d
  · exact dateLine_no_dashes d
  · decide
  · decide
  · rw [show "- \"".toList ++ cat ++ ['\"']
      = "- \"".toList ++ (cat ++ ['\"']) from by simp]
    exact catLine2_no_dashes hcat
  · exact mpLine_no_dashes (hmurl u hm)

/-- The frontmatter entries contributed by one line. -/
def lineEntries (line : List Char) : List (List Char × List Char) :=
  if line.contains ':' then
    match splitFirst [':'] line with
    | some kv => [(pyStrip kv.1, stripQuotes (pyStrip kv.2))]
    | none => []
  else []

theorem parseFrontmatterBlock_join (s : List Char) :
    parseFrontmatterBlock s = ((splitLines s).map lineEntries).flatten := by
  suffices h : ∀ (ls : List (List Char)) (acc : List (List Char × List Char)),
      ls.foldl
        (fun fm line =>
          if line.contains ':' then
            match splitFirst [':'] line with
            | some kv => fm ++ [(pyStrip kv.1, stripQuotes (pyStrip kv.2))]
            | none => fm
          else fm) acc = acc ++ (ls.map lineEntries).flatten by
    simpa [parseFrontmatterBlock] using h (splitLines s) []
  intro ls
  induction ls with
  | nil => intro acc; simp
  | cons line rest ih =>
    intro acc
    rw [List.foldl_cons, ih]
    have hstep : (if line.contains ':' then
        match splitFirst [':'] line with
        | some kv => acc ++ [(pyStrip kv.1, stripQuotes (pyStrip kv.2))]
        | none => acc
        else acc) = acc ++ lineEntries line := by
      unfold lineEntries
      by_cases hc : line.contains ':'
      · rw [if_pos hc, if_pos hc]
        cases hsf : splitFirst [':'] line with
        | none => simp
        | some kv => simp
      · rw [if_neg hc, if_neg hc]
        simp
    rw [hstep]
    simp [List.append_assoc]

theorem lineEntries_of_splitFirst {line k v : List Char}
    (hc : (':' : Char) ∈ line)
    (hsf : splitFirst [':'] line = some (k, v)) :
    lineEntries line = [(pyStrip k, stripQuotes (pyStrip v))] := by
  unfold lineEntries
  rw [if_pos (by simpa [List.contains] using hc), hsf]

theorem lineEntries_key_colon {k : List Char} (rest : List Char)
    (hk : containsSub [':'] k = false)
    (hkl : ∀ c, k.getLast? = some c → ¬ c = ':') :
    lineEntries (k ++ ([':'] ++ rest))
      = [(pyStrip k, stripQuotes (pyStrip rest))] := by
  apply lineEntries_of_splitFirst
  · exact List.mem_append_right _ (List.mem_cons_self _ _)
  · exact splitFirst_append_self (by simp) hk
      (fun c hc => by simpa using hkl c hc)

theorem dictLookup_nil (key : List Char) : dictLookup [] key = none := rfl

theorem dictLookup_single {k v key : List Char} :
    dictLookup [(k, v)] key = if k = key then some v else none := by
  simp [dictLookup]

theorem dictLookup_cons (p : List Char × List Char)
    (m : List (List Char × List Char)) (key : List Char) :
    dictLookup (p :: m) key =
      match dictLookup m key with
      | some v => some v
      | none => if p.1 = key then some p.2 else none := by
  show m.foldl _ (if p.1 = key then some p.2 else none) = _
  exact dictLookup_foldl key m _

theorem dictLookup_eq_none_of_keys {m : List (List Char × List Char)}
    {key : List Char} (h : ∀ kv ∈ m, ¬ kv.1 = key) :
    dictLookup m key = none := by
  induction m with
  | nil => rfl
  | cons p m' ih =>
    rw [dictLookup_cons, ih fun kv hkv => h kv (List.mem_cons_of_mem p hkv),
      if_neg (h p (List.mem_cons_self _ _))]

theorem lineEntries_titleLine (d : PyDate) :
    ∃ v, lineEntries (titleLine d) = [("title".toList, v)] := by
  have hshape : titleLine d = "title".toList ++
      ([':'] ++ (" \"Clippings for ".toList ++ (fmtLong d ++ ['"']))) := by
    unfold titleLine
    rw [show "title: \"Clippings for ".toList
      = "title".toList ++ ([':'] ++ " \"Clippings for ".toList) from by decide]
    simp [List.append_assoc]
  have hle := lineEntries_key_colon (k := "title".toList)
    (" \"Clippings for ".toList ++ (fmtLong d ++ ['"'])) (by decide)
    (fun c hc => by
      have hc2 : c = 'e' := by
        rw [show ("title".toList).getLast? = some 'e' from by decide] at hc
        exact (Option.some.injEq _ _).mp hc.symm
      rw [hc2]
      decide)
  rw [show pyStrip "title".toList = "title".toList from by decide] at hle
  exact ⟨_, by rw [hshape, hle]⟩

theorem lineEntries_dateLine (d : PyDate) :
    ∃ v, lineEntries (dateLine d) = [("date".toList, v)] := by
  have hshape : dateLine d = "date".toList ++ ([':'] ++ ([' '] ++ fmtYmd d)) := by
    unfold dateLine
    rw [show "date: ".toList = "date".toList ++ ([':'] ++ [' ']) from by decide]
    simp [List.append_assoc]
  have hle := lineEntries_key_colon (k := "date".toList)
    ([' '] ++ fmtYmd d) (by decide)
    (fun c hc => by
      have hc2 : c = 'e' := by
        rw [show ("date".toList).getLast? = some 'e' from by decide] at hc
        exact (Option.some.injEq _ _).mp hc.symm
      rw [hc2]
      decide)
  rw [show pyStrip "date".toList = "date".toList from by decide] at hle
  exact ⟨_, by rw [hshape]; exact hle⟩

theorem lineEntries_typeLine :
    lineEntries typeLine = [("type".toList, "post".toList)] := by decide

theorem lineEntries_catLine1 :
    lineEntries "categories:".toList = [("categories".toList, [])] := by decide

theorem catLine2_keys (cat : List Char) :
    ∀ kv ∈ lineEntries ("- \"".toList ++ (cat ++ ['"'])), ¬ kv.1 = mpKey := by
  intro kv hkv
  unfold lineEntries at hkv
  by_cases hc : ("- \"".toList ++ (cat ++ ['"'])).contains ':'
  · rw [if_pos hc] at hkv
    cases hsf : splitFirst [':'] ("- \"".toList ++ (cat ++ ['"'])) with
    | none => rw [hsf] at hkv; simp at hkv
    | some kv0 =>
      rw [hsf] at hkv
      have hline : "- \"".toList ++ (cat ++ ['"'])
          = '-' :: (" \"".toList ++ (cat ++ ['"'])) := rfl
      rw [hline, splitFirst,
        if_neg (by
          intro hpre
          obtain ⟨hh, -⟩ :=
            List.cons_prefix_cons.mp (List.isPrefixOf_iff_prefix.mp hpre)
          exact absurd hh (by decide))] at hsf
      rcases Option.map_eq_some'.mp hsf with ⟨ab, -, hab⟩
      rcases List.mem_singleton.mp hkv with rfl
      obtain ⟨w', hw'⟩ :=
        stripWith_cons_head (p := pyIsSpace) (c := '-') (w := ab.1) (by decide)
      show ¬ pyStrip kv0.1 = mpKey
      rw [← hab]
      show ¬ pyStrip ('-' :: ab.1) = mpKey
      rw [show pyStrip ('-' :: ab.1) = stripWith pyIsSpace ('-' :: ab.1) from rfl,
        hw']
      intro heq
      have := (List.cons.injEq _ _ _ _).mp heq
      exact absurd this.1 (by decide)
  · rw [if_neg hc] at hkv
    simp at hkv

theorem lineEntries_mpLine {u : List Char} (hu : cleanEdge u = true) :
    lineEntries (mpColonSpace ++ u) = [(mpKey, u)] := by
  have hshape : mpColonSpace ++ u = mpKey ++ ([':'] ++ ([' '] ++ u)) := by
    rw [show mpColonSpace = mpKey ++ ([':'] ++ [' ']) from by decide]
    simp [List.append_assoc]
  rw [hshape, lineEntries_key_colon _ (by decide)
    (fun c hc => by
      have hc2 : c = 'l' := by
        rw [show mpKey.getLast? = some 'l' from by decide] at hc
        exact (Option.some.injEq _ _).mp hc.symm
      rw [hc2]
      decide)]
  rw [show pyStrip mpKey = mpKey from by decide]
  have hstrip : pyStrip ([' '] ++ u) = u := by
    rw [show ([' '] ++ u : List Char) = [' '] ++ (u ++ []) from by simp]
    exact stripWith_sandwich (by decide) (by simp)
      (fun c hc => (cleanEdge_head hu c hc).1)
      (fun c hc => (cleanEdge_getLast hu c hc).1)
      (cleanEdge_ne_nil hu)
  rw [hstrip]
  have hq : stripQuotes u = u := by
    apply stripWith_eq_self
    · intro c hc
      simpa using (cleanEdge_head hu c hc).2
    · intro c hc
      simpa using (cleanEdge_getLast hu c hc).2
  rw [hq]

theorem pySplitMax_two {sep l R inner z : List Char}
    (h1 : splitFirst sep l = some ([], R))
    (h2 : splitFirst sep R = some (inner, z)) :
    pySplitMax sep 2 l = [[], inner, z] := by
  have e1 : pySplitMax sep 2 l =
      match splitFirst sep l with
      | none => [l]
      | some ab => ab.1 :: pySplitMax sep 1 ab.2 := rfl
  rw [e1, h1]
  have e2 : pySplitMax sep 1 R =
      match splitFirst sep R with
      | none => [R]
      | some ab => ab.1 :: pySplitMax sep 0 ab.2 := rfl
  show ([] : List Char) :: pySplitMax sep 1 R = _
  rw [e2, h2]
  rfl

theorem titleLine_head (d : PyDate) : (titleLine d).head? = some 't' := rfl

theorem titleLine_ne_nil (d : PyDate) : titleLine d ≠ [] := by
  unfold titleLine
  simp

theorem dateLine_ne_nil (d : PyDate) : dateLine d ≠ [] := by
  unfold dateLine
  simp

theorem fmtYmd_ne_nil (d : PyDate) : fmtYmd d ≠ [] := by
  unfold fmtYmd
  simp

theorem flattenLines_cons_ne_nil {l : List Char} {r : List (List Char)}
    (hl : l ≠ []) : flattenLines (l :: r) ≠ [] := by
  cases r with
  | nil => exact hl
  | cons l2 r2 =>
    rw [flattenLines_cons_cons]
    simp

theorem flattenLines_head_cons {l : List Char} (r : List (List Char))
    (hl : l ≠ []) : (flattenLines (l :: r)).head? = l.head? := by
  cases r with
  | nil => rfl
  | cons l2 r2 =>
    rw [flattenLines_cons_cons]
    exact head?_append_left _ hl

theorem fmtYmdChars_not_space {c : Char} (h : c ∈ fmtYmdChars) :
    pyIsSpace c = false := by
  fin_cases h <;> decide

theorem fmLines_eq_cons (d : PyDate) (murl : Option (List Char))
    (cat : List Char) :
    fmLines d murl cat
      = titleLine d ::
        ([dateLine d, typeLine] ++ (catLines cat ++ mpLines murl)) := by
  unfold fmLines
  simp

theorem fmLines_lines_ne_nil {d : PyDate} {murl : Option (List Char)}
    {cat : List Char} : ∀ l ∈ fmLines d murl cat, l ≠ [] := by
  intro l hl
  rcases fmLines_mem hl with rfl | rfl | rfl | rfl | rfl | ⟨u, hm, hne, rfl⟩
  · exact titleLine_ne_nil d
  · exact dateLine_ne_nil d
  · decide
  · decide
  · simp
  · simp [mpColonSpace]

theorem fmLines_last_not_space {d : PyDate} {murl : Option (List Char)}
    {cat : List Char}
    (hmurl : ∀ u, murl = some u → cleanEdge u = true) :
    ∀ l ∈ fmLines d murl cat, ∀ c, l.getLast? = some c →
      pyIsSpace c = false := by
  intro l hl c hc
  rcases fmLines_mem hl with rfl | rfl | rfl | rfl | rfl | ⟨u, hm, hne, rfl⟩
  · unfold titleLine at hc
    rw [List.getLast?_append_of_ne_nil _ (by simp),
      show (['"'] : List Char).getLast? = some '"' from rfl] at hc
    rw [(Option.some.injEq _ _).mp hc.symm]
    decide
  · unfold dateLine at hc
    rw [List.getLast?_append_of_ne_nil _ (fmtYmd_ne_nil d)] at hc
    exact fmtYmdChars_not_space (fmtYmd_mem (List.mem_of_mem_getLast? hc))
  · rw [show typeLine.getLast? = some 't' from by decide] at hc
    rw [(Option.some.injEq _ _).mp hc.symm]
    decide
  · rw [show ("categories:".toList).getLast? = some ':' from by decide] at hc
    rw [(Option.some.injEq _ _).mp hc.symm]
    decide
  · rw [List.getLast?_append_of_ne_nil _ (by simp),
      show (['"'] : List Char).getLast? = some '"' from rfl] at hc
    rw [(Option.some.injEq _ _).mp hc.symm]
    decide
  · rw [List.getLast?_append_of_ne_nil _ hne] at hc
    exact (cleanEdge_getLast (hmurl u hm) c hc).1

theorem pyStrip_cons_newline (b : List Char) :
    pyStrip ('\n' :: b) = pyStrip b := by
  show stripEnd pyIsSpace (stripStart pyIsSpace ('\n' :: b)) = _
  rw [show stripStart pyIsSpace ('\n' :: b) = stripStart pyIsSpace b from by
    unfold stripStart
    rw [List.dropWhile_cons, if_pos (by decide)]]
  rfl

/-- The core structural fact behind the round-trip claims: parsing the
content written for a generated frontmatter plus a body recovers the
frontmatter entries of its lines and the stripped body. -/
theorem parseContent_generate_frontmatter (d : PyDate)
    (murl : Option (List Char)) (cat : List Char) (body : List Char)
    (hcat : cleanCat cat)
    (hmurl : ∀ u, murl = some u → cleanValue u) :
    (parseContent (generate_frontmatter d murl cat ++ '\n' :: body)).1
      = ((fmLines d murl cat).map lineEntries).flatten ∧
    (parseContent (generate_frontmatter d murl cat ++ '\n' :: body)).2.2
      = pyStrip body := by
  have hnl : ∀ l ∈ fmLines d murl cat, '\n' ∉ l :=
    fmLines_no_newline hcat.1 fun u hu => (hmurl u hu).1
  have hnd : ∀ l ∈ fmLines d murl cat, containsSub dashes l = false :=
    fmLines_no_dashes hcat.2 fun u hu => (hmurl u hu).2.1
  have hFnd : containsSub dashes (flattenLines (fmLines d murl cat)) = false :=
    containsSub_flattenLines_false (by decide) (by decide) hnd
  have hFne : flattenLines (fmLines d murl cat) ≠ [] := by
    rw [fmLines_eq_cons]
    exact flattenLines_cons_ne_nil (titleLine_ne_nil d)
  have hcontent : generate_frontmatter d murl cat ++ '\n' :: body
      = dashes ++
        (('\n' :: (flattenLines (fmLines d murl cat) ++ ['\n'])) ++
          (dashes ++ ('\n' :: body))) := by
    unfold generate_frontmatter dashes
    simp [List.append_assoc]
  have hinner_nd : containsSub dashes
      ('\n' :: (flattenLines (fmLines d murl cat) ++ ['\n'])) = false := by
    rw [containsSub_cons_of_not_mem _ (by decide) (by decide),
      containsSub_append_head (by decide)
        (fun c hc => by
          simp only [List.head?_cons, Option.some.injEq] at hc
          rw [← hc]
          decide),
      hFnd]
    decide
  have hinner_last : ∀ c,
      ('\n' :: (flattenLines (fmLines d murl cat) ++ ['\n'])).getLast?
        = some c → c ∉ dashes := by
    intro c hc
    rw [show ('\n' :: (flattenLines (fmLines d murl cat) ++ ['\n']))
        = ['\n'] ++ (flattenLines (fmLines d murl cat) ++ ['\n']) from rfl,
      List.getLast?_append_of_ne_nil _ (by simp),
      List.getLast?_append_of_ne_nil _ (by simp),
      show (['\n'] : List Char).getLast? = some '\n' from rfl] at hc
    rw [(Option.some.injEq _ _).mp hc.symm]
    decide
  have hsplit : pySplitMax dashes 2
      (generate_frontmatter d murl cat ++ '\n' :: body)
      = [[], '\n' :: (flattenLines (fmLines d murl cat) ++ ['\n']),
          '\n' :: body] := by
    rw [hcontent]
    exact pySplitMax_two (splitFirst_self_append _ (by decide))
      (splitFirst_append_self (by decide) hinner_nd hinner_last)
  have hpre : ("---".toList).isPrefixOf
      (generate_frontmatter d murl cat ++ '\n' :: body) = true := by
    rw [hcontent]
    exact List.isPrefixOf_iff_prefix.mpr (List.prefix_append _ _)
  have hpc : parseContent (generate_frontmatter d murl cat ++ '\n' :: body)
      = (parseFrontmatterBlock
          (pyStrip ('\n' :: (flattenLines (fmLines d murl cat) ++ ['\n']))),
         parseLinks (pyStrip ('\n' :: body)), pyStrip ('\n' :: body)) := by
    unfold parseContent
    rw [show pySplitMax "---".toList 2
        (generate_frontmatter d murl cat ++ '\n' :: body)
        = [[], '\n' :: (flattenLines (fmLines d murl cat) ++ ['\n']),
            '\n' :: body] from hsplit]
    simp only [hpre]
    rfl
  have hstrip : pyStrip
      ('\n' :: (flattenLines (fmLines d murl cat) ++ ['\n']))
      = flattenLines (fmLines d murl cat) := by
    show stripWith pyIsSpace
      (['\n'] ++ (flattenLines (fmLines d murl cat) ++ ['\n'])) = _
    apply stripWith_sandwich (by decide) (by decide)
    · intro c hc
      rw [fmLines_eq_cons] at hc
      rw [flattenLines_head_cons _ (titleLine_ne_nil d), titleLine_head] at hc
      rw [(Option.some.injEq _ _).mp hc.symm]
      decide
    · exact flattenLines_getLast_prop _ fmLines_lines_ne_nil
        (fmLines_last_not_space fun u hu => (hmurl u hu).2.2)
    · exact hFne
  constructor
  · rw [hpc]
    show parseFrontmatterBlock _ = _
    rw [hstrip, parseFrontmatterBlock_join,
      splitLines_flattenLines (by rw [fmLines_eq_cons]; simp) hnl]
  · rw [hpc]
    show pyStrip ('\n' :: body) = pyStrip body
    exact pyStrip_cons_newline body

theorem dictLookup_append_elim (m1 m2 : List (List Char × List Char))
    (k : List Char) :
    dictLookup (m1 ++ m2) k = (dictLookup m2 k).elim (dictLookup m1 k) some := by
  rw [dictLookup_append]
  cases dictLookup m2 k <;> rfl

theorem mpLines_lookup {murl : Option (List Char)}
    (hmurl : ∀ u, murl = some u → cleanValue u) :
    dictLookup ((mpLines murl).map lineEntries).flatten mpKey = murl := by
  rcases murl with - | u
  · rfl
  · have hcv := hmurl u rfl
    have hne : ¬ u.isEmpty = true := by
      have h0 := cleanEdge_ne_nil hcv.2.2
      cases u with
      | nil => exact absurd rfl h0
      | cons a as => simp
    rw [show mpLines (some u) = [mpColonSpace ++ u] from by
      simp only [mpLines]
      rw [if_neg hne]]
    simp only [List.map_cons, List.map_nil, List.flatten_cons,
      List.flatten_nil, List.append_nil]
    rw [lineEntries_mpLine hcv.2.2, dictLookup_single, if_pos rfl]

theorem catLines_lookup (cat : List Char) :
    dictLookup ((catLines cat).map lineEntries).flatten mpKey = none := by
  apply dictLookup_eq_none_of_keys
  intro kv hkv
  rcases List.mem_flatten.mp hkv with ⟨es, hes, hkv2⟩
  rcases List.mem_map.mp hes with ⟨line, hline, rfl⟩
  rcases catLines_mem hline with rfl | rfl
  · rw [lineEntries_catLine1] at hkv2
    rcases List.mem_singleton.mp hkv2 with rfl
    decide
  · apply catLine2_keys cat kv
    rw [show "- \"".toList ++ (cat ++ ['"'])
      = "- \"".toList ++ cat ++ ['"'] from by simp]
    exact hkv2

theorem generate_frontmatter_lookup (d : PyDate)
    (murl : Option (List Char)) (cat : List Char) (body : List Char)
    (hcat : cleanCat cat)
    (hmurl : ∀ u, murl = some u → cleanValue u) :
    dictLookup
        (parseContent (generate_frontmatter d murl cat ++ '\n' :: body)).1
        mpKey
      = murl := by
  rw [(parseContent_generate_frontmatter d murl cat body hcat hmurl).1,
    fmLines_eq_cons]
  simp only [List.map_cons, List.map_append, List.map_nil,
    List.flatten_cons, List.flatten_append, List.flatten_nil,
    List.append_nil]
  obtain ⟨vt, hvt⟩ := lineEntries_titleLine d
  obtain ⟨vd, hvd⟩ := lineEntries_dateLine d
  rw [hvt, hvd, lineEntries_typeLine]
  simp only [dictLookup_append_elim, mpLines_lookup hmurl,
    catLines_lookup cat]
  rcases murl with - | u
  · simp only [Option.elim]
    rw [dictLookup_single, if_neg (by decide), dictLookup_single,
      if_neg (by decide), dictLookup_single, if_neg (by decide)]
  · rfl

/-! ### The replacement pass of `save_micropub_url` -/

theorem processRepl_no_backslash :
    ∀ {l : List Char}, '\\' ∉ l → processRepl l = some l := by
  intro l
  induction l with
  | nil => intro h; rfl
  | cons c cs ih =>
    intro h
    have hc : ¬ c = '\\' := fun hcc => h (hcc ▸ List.mem_cons_self c cs)
    have hcs : '\\' ∉ cs := fun hm => h (List.mem_cons_of_mem c hm)
    rw [processRepl.eq_def]
    split
    · simp_all
    · simp_all
    · simp_all
    · rename_i c2 rest hx1 hx2 heq
      obtain ⟨rfl, rfl⟩ := List.cons.injEq .. |>.mp heq
      rw [ih hcs]
      rfl

theorem mpPat_not_prefixOf_newline (t : List Char) :
    mpPat.isPrefixOf ('\n' :: t) = false := by
  cases hpre : mpPat.isPrefixOf ('\n' :: t)
  · rfl
  · obtain ⟨h1, -⟩ :=
      List.cons_prefix_cons.mp (List.isPrefixOf_iff_prefix.mp hpre)
    exact absurd h1 (by decide)

theorem reSubGo_no_occurrence {repl : List Char} :
    ∀ {l : List Char}, containsSub mpPat l = false →
      reSubGo repl l false = l := by
  intro l
  induction l with
  | nil => intro _; rfl
  | cons c cs ih =>
    intro h
    simp only [containsSub, Bool.or_eq_false_iff] at h
    rw [reSubGo, if_neg (by simp [h.1]), ih h.2]

theorem reSubGo_skip_all {repl : List Char} :
    ∀ {y : List Char}, '\n' ∉ y → reSubGo repl y true = [] := by
  intro y
  induction y with
  | nil => intro _; rfl
  | cons c cs ih =>
    intro h
    have hc : ¬ c = '\n' := fun hcc => h (hcc ▸ List.mem_cons_self c cs)
    rw [reSubGo, if_neg hc]
    exact ih fun hm => h (List.mem_cons_of_mem c hm)

theorem reSubGo_skip_newline {repl : List Char} (z : List Char) :
    ∀ {y : List Char}, '\n' ∉ y →
      reSubGo repl (y ++ '\n' :: z) true = '\n' :: reSubGo repl z false := by
  intro y
  induction y with
  | nil =>
    intro _
    rw [List.nil_append, reSubGo, if_pos rfl]
  | cons c cs ih =>
    intro h
    have hc : ¬ c = '\n' := fun hcc => h (hcc ▸ List.mem_cons_self c cs)
    rw [List.cons_append, reSubGo, if_neg hc]
    exact ih fun hm => h (List.mem_cons_of_mem c hm)

theorem reSubGo_append_newline {repl : List Char} (r : List Char) :
    ∀ {x : List Char}, containsSub mpPat x = false →
      reSubGo repl (x ++ '\n' :: r) false
        = x ++ reSubGo repl ('\n' :: r) false := by
  intro x
  induction x with
  | nil => intro _; rfl
  | cons a x2 ih =>
    intro h
    simp only [containsSub, Bool.or_eq_false_iff] at h
    have hnp : ¬ mpPat <+: (a :: x2) ++ '\n' :: r := by
      intro hpre
      rcases prefix_append_cases (x := a :: x2) hpre with h1 | ⟨q, hq1, hq2⟩
      · exact absurd (List.isPrefixOf_iff_prefix.mpr h1) (by simp [h.1])
      · cases q with
        | nil =>
          rw [List.append_nil] at hq1
          have h2 : mpPat <+: a :: x2 := by
            rw [hq1]
          exact absurd (List.isPrefixOf_iff_prefix.mpr h2) (by simp [h.1])
        | cons qh qt =>
          obtain ⟨hq3, -⟩ := List.cons_prefix_cons.mp hq2
          have hmem : qh ∈ mpPat := by
            rw [hq1]
            exact List.mem_append_right _ (List.mem_cons_self qh qt)
          rw [hq3] at hmem
          exact absurd hmem (by decide)
    rw [List.cons_append, reSubGo, if_neg (by simpa using hnp), ih h.2]
    rfl

theorem mpPat_isPrefixOf_mpColonSpace (url w : List Char) :
    mpPat.isPrefixOf ((mpColonSpace ++ url) ++ w) = true := by
  apply List.isPrefixOf_iff_prefix.mpr
  have h1 : mpPat <+: mpColonSpace :=
    List.isPrefixOf_iff_prefix.mp (by decide)
  refine h1.trans ?_
  rw [List.append_assoc]
  exact List.prefix_append _ _

theorem reSubGo_repl_line {url : List Char} (z : List Char)
    (hnl : '\n' ∉ url) :
    reSubGo (mpColonSpace ++ url) ((mpColonSpace ++ url) ++ '\n' :: z) false
      = (mpColonSpace ++ url)
          ++ '\n' :: reSubGo (mpColonSpace ++ url) z false := by
  have hshape : (mpColonSpace ++ url) ++ '\n' :: z
      = 'm' :: (("icropub_url: ".toList ++ url) ++ '\n' :: z) := by
    rw [show mpColonSpace = 'm' :: "icropub_url: ".toList from rfl]
    simp
  rw [hshape, reSubGo, if_pos ?hpre]
  case hpre =>
    rw [← hshape]
    exact mpPat_isPrefixOf_mpColonSpace url ('\n' :: z)
  rw [reSubGo_skip_newline z ?hnl2]
  case hnl2 =>
    intro hm
    rcases List.mem_append.mp hm with h1 | h2
    · exact absurd h1 (by decide)
    · exact hnl h2

theorem save_micropub_url_insert_idem {content url r : List Char}
    (hmp : containsSub mpPat content = false)
    (hnl : '\n' ∉ url) (hbs : '\\' ∉ url)
    (h : save_micropub_url content url = some r) :
    save_micropub_url r url = some r := by
  rw [save_micropub_url, if_neg (by simp [hmp])] at h
  have hr : replaceFirst delimLine
      ('\n' :: mpColonSpace ++ url ++ delimLine) content = r := by
    simpa using h
  by_cases hdl : containsSub delimLine content = true
  · obtain ⟨a, b, hab, hrw⟩ :=
      replaceFirst_decomp ('\n' :: mpColonSpace ++ url ++ delimLine)
        (l := content) (by decide) hdl
    rw [hrw] at hr
    rw [hab] at hmp
    have ha : containsSub mpPat a = false := by
      cases hca : containsSub mpPat a
      · rfl
      · rw [containsSub_append_left (delimLine ++ b) hca] at hmp
        simp at hmp
    have hb : containsSub mpPat b = false := by
      cases hcb : containsSub mpPat b
      · rfl
      · rw [containsSub_append_right
          (x := a) (containsSub_append_right (x := delimLine) hcb)] at hmp
        simp at hmp
    have hW : containsSub mpPat ("---\n".toList ++ b) = false := by
      have hlast : ∀ c, ("---\n".toList).getLast? = some c → c ∉ mpPat := by
        intro c hc
        rw [show ("---\n".toList).getLast? = some '\n' from by decide] at hc
        rw [← (Option.some.injEq _ _).mp hc]
        decide
      rw [containsSub_append_last (by decide) hlast, hb,
        show containsSub mpPat ("---\n".toList) = false from by decide]
      rfl
    have hshape : a ++ (('\n' :: mpColonSpace ++ url ++ delimLine) ++ b)
        = a ++ '\n' :: ((mpColonSpace ++ url)
            ++ '\n' :: ("---\n".toList ++ b)) := by
      rw [show delimLine = '\n' :: "---\n".toList from rfl]
      simp [List.cons_append, List.append_assoc]
    have hrs : r = a ++ '\n' :: ((mpColonSpace ++ url)
        ++ '\n' :: ("---\n".toList ++ b)) := by
      rw [← hr, hshape]
    have hsub : reSubGo (mpColonSpace ++ url)
        (a ++ '\n' :: ((mpColonSpace ++ url)
          ++ '\n' :: ("---\n".toList ++ b))) false
        = a ++ '\n' :: ((mpColonSpace ++ url)
            ++ '\n' :: ("---\n".toList ++ b)) := by
      rw [reSubGo_append_newline _ ha, reSubGo,
        if_neg (by simp [mpPat_not_prefixOf_newline]),
        reSubGo_repl_line _ hnl, reSubGo_no_occurrence hW]
    have hbs2 : '\\' ∉ mpColonSpace ++ url := by
      intro hm
      rcases List.mem_append.mp hm with h1 | h2
      · exact absurd h1 (by decide)
      · exact hbs h2
    rw [hrs, save_micropub_url, if_pos ?hc1]
    case hc1 =>
      apply containsSub_append_right
      rw [show ('\n' :: ((mpColonSpace ++ url)
          ++ '\n' :: ("---\n".toList ++ b)))
        = '\n' :: ((mpColonSpace ++ url)
          ++ '\n' :: ("---\n".toList ++ b)) from rfl]
      apply containsSub_cons_of_tail
      exact containsSub_of_isPrefixOf
        (mpPat_isPrefixOf_mpColonSpace url ('\n' :: ("---\n".toList ++ b)))
    rw [processRepl_no_backslash hbs2]
    simp only [Option.map_some', Option.some.injEq]
    exact hsub
  · have hdl2 : containsSub delimLine content = false := by
      simpa using hdl
    rw [replaceFirst_eq_self hdl2] at hr
    rw [← hr, save_micropub_url, if_neg (by simp [hmp]),
      replaceFirst_eq_self hdl2]

theorem reSubGo_skip_cases (repl : List Char) :
    ∀ cs : List Char, reSubGo repl cs true = []
      ∨ ∃ y z, cs = y ++ '\n' :: z ∧ '\n' ∉ y
          ∧ reSubGo repl cs true = '\n' :: reSubGo repl z false := by
  intro cs
  induction cs with
  | nil => exact Or.inl rfl
  | cons c cs2 ih =>
    by_cases hc : c = '\n'
    · subst hc
      refine Or.inr ⟨[], cs2, rfl, by simp, ?_⟩
      rw [reSubGo, if_pos rfl]
    · rw [reSubGo, if_neg hc]
      rcases ih with h | ⟨y, z, hcs, hy, hr⟩
      · exact Or.inl h
      · refine Or.inr ⟨c :: y, z, by rw [hcs, List.cons_append], ?_, hr⟩
        intro hm
        rcases List.mem_cons.mp hm with h1 | h2
        · exact hc h1.symm
        · exact hy h2

theorem reSubGo_prefix_no_m {url : List Char} :
    ∀ (cs q : List Char), q <+: reSubGo (mpColonSpace ++ url) cs false →
      'm' ∉ q → q <+: cs := by
  intro cs
  induction cs with
  | nil =>
    intro q hq _
    exact hq
  | cons d ds ih =>
    intro q hq hm
    rw [reSubGo] at hq
    by_cases hp : mpPat.isPrefixOf (d :: ds) = true
    · rw [if_pos hp] at hq
      cases q with
      | nil => exact List.nil_prefix
      | cons a q2 =>
        exfalso
        have hsh : (mpColonSpace ++ url)
            ++ reSubGo (mpColonSpace ++ url) ds true
            = 'm' :: (("icropub_url: ".toList ++ url)
                ++ reSubGo (mpColonSpace ++ url) ds true) := by
          rw [show mpColonSpace = 'm' :: "icropub_url: ".toList from rfl]
          simp
        rw [hsh] at hq
        obtain ⟨ha, -⟩ := List.cons_prefix_cons.mp hq
        subst ha
        exact hm (List.mem_cons_self _ _)
    · rw [if_neg hp] at hq
      cases q with
      | nil => exact List.nil_prefix
      | cons a q2 =>
        obtain ⟨ha, hq2⟩ := List.cons_prefix_cons.mp hq
        have hm2 : 'm' ∉ q2 := fun h2 => hm (List.mem_cons_of_mem a h2)
        rw [ha]
        exact List.cons_prefix_cons.mpr ⟨rfl, ih q2 hq2 hm2⟩

theorem mpPat_not_prefixOf_reSubGo {url : List Char} {c : Char}
    {cs : List Char} (hnp : mpPat.isPrefixOf (c :: cs) = false) :
    mpPat.isPrefixOf (c :: reSubGo (mpColonSpace ++ url) cs false)
      = false := by
  cases hp2 : mpPat.isPrefixOf (c :: reSubGo (mpColonSpace ++ url) cs false)
  · rfl
  · exfalso
    have hpre := List.isPrefixOf_iff_prefix.mp hp2
    rw [show mpPat = 'm' :: "icropub_url:".toList from rfl] at hpre
    obtain ⟨hc, htail⟩ := List.cons_prefix_cons.mp hpre
    have htcs : "icropub_url:".toList <+: cs :=
      reSubGo_prefix_no_m cs _ htail (by decide)
    have hpt : mpPat.isPrefixOf (c :: cs) = true := by
      apply List.isPrefixOf_iff_prefix.mpr
      rw [show mpPat = 'm' :: "icropub_url:".toList from rfl, ← hc]
      exact List.cons_prefix_cons.mpr ⟨rfl, htcs⟩
    rw [hpt] at hnp
    exact absurd hnp (by simp)

theorem containsSub_mpPat_reSubGo {url : List Char} :
    ∀ {l : List Char}, containsSub mpPat l = true →
      containsSub mpPat (reSubGo (mpColonSpace ++ url) l false) = true := by
  intro l
  induction l with
  | nil => intro h; exact absurd h (by decide)
  | cons c cs ih =>
    intro h
    rw [reSubGo]
    by_cases hp : mpPat.isPrefixOf (c :: cs) = true
    · rw [if_pos hp]
      exact containsSub_of_isPrefixOf (mpPat_isPrefixOf_mpColonSpace url _)
    · rw [if_neg hp]
      simp only [containsSub, Bool.or_eq_true] at h
      rcases h with h1 | h2
      · exact absurd h1 hp
      · exact containsSub_cons_of_tail (ih h2)

theorem reSubGo_repl_end {url : List Char} (hnl : '\n' ∉ url) :
    reSubGo (mpColonSpace ++ url) (mpColonSpace ++ url) false
      = mpColonSpace ++ url := by
  have hshape : mpColonSpace ++ url
      = 'm' :: ("icropub_url: ".toList ++ url) := by
    rw [show mpColonSpace = 'm' :: "icropub_url: ".toList from rfl]
    simp
  rw [hshape, reSubGo, if_pos ?hpre]
  case hpre =>
    rw [← hshape]
    exact List.isPrefixOf_iff_prefix.mpr
      ((List.isPrefixOf_iff_prefix.mp
        (by decide : mpPat.isPrefixOf mpColonSpace = true)).trans
        (List.prefix_append _ _))
  rw [reSubGo_skip_all ?hnl2, List.append_nil]
  case hnl2 =>
    intro hm
    rcases List.mem_append.mp hm with h1 | h2
    · exact absurd h1 (by decide)
    · exact hnl h2

theorem reSubMp_idem {url : List Char} (hnl : '\n' ∉ url) :
    ∀ (n : Nat) (l : List Char), l.length ≤ n →
      reSubGo (mpColonSpace ++ url)
          (reSubGo (mpColonSpace ++ url) l false) false
        = reSubGo (mpColonSpace ++ url) l false := by
  intro n
  induction n with
  | zero =>
    intro l hl
    have hnil : l = [] := List.length_eq_zero.mp (Nat.le_zero.mp hl)
    subst hnil
    rfl
  | succ n ih =>
    intro l hl
    cases l with
    | nil => rfl
    | cons c cs =>
      simp only [List.length_cons] at hl
      by_cases hp : mpPat.isPrefixOf (c :: cs) = true
      · rw [reSubGo, if_pos hp]
        rcases reSubGo_skip_cases (mpColonSpace ++ url) cs with
          hsk | ⟨y, z, hcs, hy, hsk⟩
        · rw [hsk, List.append_nil, reSubGo_repl_end hnl]
        · have hlen2 : cs.length = y.length + (z.length + 1) := by
            rw [hcs, List.length_append, List.length_cons]
          rw [hsk, reSubGo_repl_line _ hnl, ih z (by omega)]
      · have hnp : mpPat.isPrefixOf (c :: cs) = false := by
          cases h2 : mpPat.isPrefixOf (c :: cs)
          · rfl
          · exact absurd h2 hp
        rw [reSubGo, if_neg hp, reSubGo,
          if_neg (by simp [mpPat_not_prefixOf_reSubGo hnp]),
          ih cs (by omega)]

theorem save_micropub_url_idem {content url r : List Char}
    (hnl : '\n' ∉ url) (hbs : '\\' ∉ url)
    (h : save_micropub_url content url = some r) :
    save_micropub_url r url = some r := by
  have hbs2 : '\\' ∉ mpColonSpace ++ url := by
    intro hm
    rcases List.mem_append.mp hm with h1 | h2
    · exact absurd h1 (by decide)
    · exact hbs h2
  by_cases hmp : containsSub mpPat content = true
  · rw [save_micropub_url, if_pos hmp, processRepl_no_backslash hbs2] at h
    simp only [Option.map_some', Option.some.injEq] at h
    have hmp2 : containsSub mpPat r = true := by
      rw [← h]
      exact containsSub_mpPat_reSubGo hmp
    rw [save_micropub_url, if_pos hmp2, processRepl_no_backslash hbs2]
    simp only [Option.map_some', Option.some.injEq]
    rw [← h]
    exact reSubMp_idem hnl content.length content (Nat.le_refl _)
  · have hmp3 : containsSub mpPat content = false := by
      cases h2 : containsSub mpPat content
      · rfl
      · exact absurd h2 hmp
    exact save_micropub_url_insert_idem hmp3 hnl hbs h

theorem dropWhile_append_of_ne {p : Char → Bool} :
    ∀ {x : List Char} (y : List Char), x.dropWhile p ≠ [] →
      (x ++ y).dropWhile p = x.dropWhile p ++ y := by
  intro x
  induction x with
  | nil => intro y h; exact absurd rfl h
  | cons a x2 ih =>
    intro y h
    rw [List.cons_append, List.dropWhile_cons]
    by_cases hpa : p a = true
    · rw [if_pos hpa]
      rw [List.dropWhile_cons, if_pos hpa] at h
      rw [ih y h, List.dropWhile_cons, if_pos hpa]
    · rw [if_neg hpa,
        show (a :: x2).dropWhile p = a :: x2 from by
          rw [List.dropWhile_cons, if_neg hpa]]
      rfl

theorem stripEnd_append_singleton {p : Char → Bool} {c : Char}
    (hc : p c = true) (l : List Char) :
    stripEnd p (l ++ [c]) = stripEnd p l := by
  unfold stripEnd
  rw [List.reverse_append]
  simp only [List.reverse_cons, List.reverse_nil, List.nil_append,
    List.singleton_append]
  rw [List.dropWhile_cons, if_pos hc]

theorem pyStrip_append_newline (x : List Char) :
    pyStrip (x ++ ['\n']) = pyStrip x := by
  show stripEnd pyIsSpace (stripStart pyIsSpace (x ++ ['\n']))
    = stripEnd pyIsSpace (stripStart pyIsSpace x)
  unfold stripStart
  by_cases hx : x.dropWhile pyIsSpace = []
  · rw [dropWhile_append_all _ (List.dropWhile_eq_nil_iff.mp hx), hx,
      show (['\n'] : List Char).dropWhile pyIsSpace = [] from by decide]
  · rw [dropWhile_append_of_ne _ hx, stripEnd_append_singleton (by decide)]

/-! ### Helper lemmas for the claim theorems -/

theorem fetch_bookmarks_foldl (tzOff : Int) (tstr : List Char) :
    ∀ (items : List RawItem) (acc : List Bookmark),
      items.foldl
        (fun acc it =>
          if includeItem tzOff tstr it then acc ++ [mkBookmark it] else acc)
        acc
      = acc ++ (items.filter (includeItem tzOff tstr)).map mkBookmark := by
  intro items
  induction items with
  | nil => intro acc; simp
  | cons it rest ih =>
    intro acc
    rw [List.foldl_cons, List.filter_cons]
    cases h : includeItem tzOff tstr it
    · simp [h, ih]
    · simp [h, ih]

theorem foldl_append_chunks (f : RawHighlight → List Char) :
    ∀ (hls : List RawHighlight) (base : List Char),
      hls.foldl (fun acc hl => acc ++ f hl) base
        = base ++ (hls.map f).flatten := by
  intro hls
  induction hls with
  | nil => intro base; simp
  | cons hl rest ih =>
    intro base
    rw [List.foldl_cons, ih]
    simp [List.append_assoc]

theorem joinBlocks_cons :
    ∀ (bs : List (List Char)) (b : List Char),
      joinBlocks (b :: bs)
        = b ++ (bs.map (fun x => "\n\n".toList ++ x)).flatten := by
  intro bs
  induction bs with
  | nil => intro b; simp [joinBlocks]
  | cons b2 rest ih =>
    intro b
    rw [joinBlocks, ih b2]
    simp [List.append_assoc]

theorem fmtHighlightChunk_eq_spec {hl : RawHighlight}
    (h : pyStrip (hl.text.getD []) ≠ []) :
    fmtHighlightChunk hl = "\n\n".toList ++ specHighlightBlock hl := by
  simp only [fmtHighlightChunk, specHighlightBlock]
  rw [if_neg (by simp [List.isEmpty_iff, h]),
    show ("\n\n    > ".toList : List Char)
      = "\n\n".toList ++ "    > ".toList from by decide]
  simp [List.append_assoc]

theorem containsSub_delimLine_header {flat : List Char}
    (hf : containsSub dashes flat = false) :
    containsSub delimLine ("---".toList ++ '\n' :: flat) = false := by
  have h1 : containsSub delimLine flat = false := by
    cases hc : containsSub delimLine flat
    · rfl
    · exfalso
      have hinf : dashes <:+: flat :=
        (show dashes <:+: delimLine from by decide).trans
          (containsSub_eq_true_iff.mp hc)
      rw [containsSub_eq_true_iff.mpr hinf] at hf
      exact absurd hf (by simp)
  have h2 : delimLine.isPrefixOf ('\n' :: flat) = false := by
    cases hp : delimLine.isPrefixOf ('\n' :: flat)
    · rfl
    · exfalso
      have hpre := List.isPrefixOf_iff_prefix.mp hp
      rw [show delimLine = '\n' :: "---\n".toList from rfl] at hpre
      obtain ⟨-, h3⟩ := List.cons_prefix_cons.mp hpre
      have h4 : dashes <+: flat :=
        (show dashes <+: "---\n".toList from
          List.isPrefixOf_iff_prefix.mp (by decide)).trans h3
      rw [containsSub_eq_true_iff.mpr h4.isInfix] at hf
      exact absurd hf (by simp)
  have hd : ∀ t : List Char, delimLine.isPrefixOf ('-' :: t) = false := by
    intro t
    cases hp : delimLine.isPrefixOf ('-' :: t)
    · rfl
    · obtain ⟨he, -⟩ :=
        List.cons_prefix_cons.mp (List.isPrefixOf_iff_prefix.mp hp)
      exact absurd he (by decide)
  show containsSub delimLine ('-' :: '-' :: '-' :: '\n' :: flat) = false
  simp only [containsSub, hd, h2, Bool.false_or]
  exact h1

theorem fmtYmd_last_not_delim {c : Char} (h : c ∈ tenDigits) :
    c ∉ delimLine := by
  fin_cases h <;> decide

theorem fmLines_none_last_not_delim (d : PyDate) (cat : List Char) :
    ∀ c, (flattenLines (fmLines d none cat)).getLast? = some c →
      c ∉ delimLine := by
  apply flattenLines_getLast_prop (fun c => c ∉ delimLine)
    fmLines_lines_ne_nil
  intro l hl c hc
  rcases fmLines_mem hl with rfl | rfl | rfl | rfl | rfl | ⟨u, hm, -, -⟩
  · unfold titleLine at hc
    rw [List.getLast?_append_of_ne_nil _ (by simp),
      show (['"'] : List Char).getLast? = some '"' from rfl] at hc
    rw [← (Option.some.injEq _ _).mp hc]
    decide
  · unfold dateLine at hc
    rw [List.getLast?_append_of_ne_nil _ (fmtYmd_ne_nil d)] at hc
    unfold fmtYmd at hc
    rw [List.getLast?_append_of_ne_nil _ (by simp),
      show ('-' :: pad2 d.day) = ['-'] ++ pad2 d.day from rfl,
      List.getLast?_append_of_ne_nil _ (pad2_ne_nil d.day)] at hc
    exact fmtYmd_last_not_delim (pad2_mem (List.mem_of_mem_getLast? hc))
  · rw [show typeLine.getLast? = some 't' from by decide] at hc
    rw [← (Option.some.injEq _ _).mp hc]
    decide
  · rw [show ("categories:".toList).getLast? = some ':' from by decide] at hc
    rw [← (Option.some.injEq _ _).mp hc]
    decide
  · rw [List.getLast?_append_of_ne_nil _ (by simp),
      show (['"'] : List Char).getLast? = some '"' from rfl] at hc
    rw [← (Option.some.injEq _ _).mp hc]
    decide
  · cases hm

/-! ### Claim theorems -/

/-- C1: the general statement holds — `fetch_bookmarks` keeps exactly the
items whose `created` timestamp, converted to the host timezone (with the
raw ten-character-prefix fallback when parsing fails), renders as the
target date string — but the spec's second example is wrong: at UTC-5 the
item created `2026-01-18T02:00:00.000Z` has local date `2026-01-17` and
is therefore included for target `2026-01-17`, not excluded.  Amended:
both example items are included. -/
theorem c1_fetch_bookmarks_date_filter :
    (∀ (tzOff : Int) (target : PyDate) (items : List RawItem),
      fetch_bookmarks tzOff target items
        = (items.filter (includeItem tzOff (fmtYmd target))).map mkBookmark)
    ∧ includeItem (-300) (fmtYmd exDate) exItemEarly = true
    ∧ includeItem (-300) (fmtYmd exDate) exItemLate = true := by
  refine ⟨fun tzOff target items => ?_, by decide, by decide⟩
  unfold fetch_bookmarks
  rw [fetch_bookmarks_foldl]
  rfl

/-- C1 counterexample: the spec asserts the item created
`2026-01-18T02:00:00.000Z` is excluded for target date `2026-01-17` in a
UTC-5 host timezone; the code computes its local calendar date as
`2026-01-17` and includes it. -/
theorem c1_cex_late_item_included :
    itemDate (-300) "2026-01-18T02:00:00.000Z".toList = fmtYmd exDate
    ∧ fetch_bookmarks (-300) exDate [exItemLate] = [mkBookmark exItemLate] :=
  ⟨by decide, by decide⟩

/-- C2: corrected — `parse_existing_post` splits each frontmatter line at
its FIRST colon (`line.split(":", 1)`), not its last: for a line
`k ++ ":" ++ v` whose key part contains no colon, the entry maps the
stripped key to the stripped, quote-stripped value, however many further
colons `v` contains. -/
theorem c2_parse_frontmatter_first_colon (k v : List Char)
    (hk : ':' ∉ k) (hk2 : '\n' ∉ k) (hv : '\n' ∉ v) :
    parseFrontmatterBlock (k ++ ':' :: v)
      = [(pyStrip k, stripQuotes (pyStrip v))] := by
  unfold parseFrontmatterBlock
  rw [splitLines_no_newline ?hnl]
  case hnl =>
    intro hm
    rcases List.mem_append.mp hm with h1 | h2
    · exact hk2 h1
    · rcases List.mem_cons.mp h2 with h3 | h4
      · exact absurd h3 (by decide)
      · exact hv h4
  simp only [List.foldl_cons, List.foldl_nil]
  rw [if_pos ?hcol]
  case hcol =>
    show (k ++ ':' :: v).contains ':' = true
    simp [List.contains]
  rw [show k ++ ':' :: v = k ++ ([':'] ++ v) from rfl,
    splitFirst_append_self (by decide)
      (containsSub_eq_false_of_not_mem (by decide) hk) ?hlast]
  case hlast =>
    intro c hc hmem
    rcases List.mem_singleton.mp hmem with rfl
    exact hk (List.mem_of_mem_getLast? hc)
  rfl

/-- C2 witness: the first-colon characterisation at the concrete line
`micropub_url: https://x`. -/
theorem c2_witness :
    ':' ∉ "micropub_url".toList ∧
    parseFrontmatterBlock
        ("micropub_url".toList ++ ':' :: " https://x".toList)
      = [(pyStrip "micropub_url".toList,
          stripQuotes (pyStrip " https://x".toList))] :=
  ⟨by decide,
   c2_parse_frontmatter_first_colon _ _ (by decide) (by decide) (by decide)⟩

/-- C2 counterexample: on the line `micropub_url: https://x` the code
yields the entry `micropub_url ↦ https://x` (first-colon split), while the
spec's last-colon split would yield `micropub_url: https ↦ //x`. -/
theorem c2_cex_last_colon_differs :
    parseFrontmatterBlock "micropub_url: https://x".toList
      = [(mpKey, "https://x".toList)]
    ∧ specParseLastColon "micropub_url: https://x".toList
      = [("micropub_url: https".toList, "//x".toList)]
    ∧ parseFrontmatterBlock "micropub_url: https://x".toList
      ≠ specParseLastColon "micropub_url: https://x".toList :=
  ⟨by decide, by decide, by decide⟩

/-- C4: corrected — the round-trip holds for identifiers that survive the
line-oriented format: no newline, no `---` occurrence, and no
leading/trailing whitespace or quote (the parser strips those).  Under
those conditions the re-parsed `micropub_url` value is exactly the
generated one. -/
theorem c4_micropub_url_roundtrip (d : PyDate) (cat u body : List Char)
    (hcat : cleanCat cat) (hu : cleanValue u) :
    dictLookup
        (parseContent (generate_frontmatter d (some u) cat ++ '\n' :: body)).1
        mpKey
      = some u :=
  generate_frontmatter_lookup d (some u) cat body hcat
    (fun u2 h => ((Option.some.injEq _ _).mp h) ▸ hu)

/-- C4 witness: the round-trip at a concrete date and identifier. -/
theorem c4_witness :
    cleanValue "https://example.com/p/1".toList ∧
    dictLookup
        (parseContent (generate_frontmatter exDate
          (some "https://example.com/p/1".toList) [] ++ '\n' :: ['b'])).1
        mpKey
      = some "https://example.com/p/1".toList :=
  ⟨⟨by decide, by decide, by decide⟩,
   c4_micropub_url_roundtrip exDate [] _ ['b'] ⟨by decide, by decide⟩
     ⟨by decide, by decide, by decide⟩⟩

/-- C4 counterexample: an identifier containing a newline does not
round-trip — generating frontmatter with `x\ny` and re-parsing yields
`micropub_url ↦ x`, not the original string. -/
theorem c4_cex_newline_url :
    dictLookup
        (parseContent (generate_frontmatter exDate
          (some ['x', '\n', 'y']) [] ++ '\n' :: ['b'])).1 mpKey
      = some ['x']
    ∧ (['x'] : List Char) ≠ ['x', '\n', 'y'] :=
  ⟨by decide, by decide⟩

/-- C6: with an empty fetched bookmark list `create_or_update_post`
returns without writing: no file is created and the store (any existing
file for the date included) is unchanged. -/
theorem c6_empty_bookmarks_no_write (target : PyDate) (cat : List Char)
    (store : PyDate → Option (List Char)) :
    create_or_update_post target [] cat store = (none, store) := rfl

/-- C5 counterexample: a previous file whose frontmatter maps
`micropub_url` to the empty string.  The previous frontmatter has the
key, but the regenerated file does not (the empty string is falsy, so
`generate_frontmatter` omits the line). -/
theorem c5_cex_empty_micropub_value :
    dictLookup (parseContent exPrevEmptyMp).1 mpKey = some []
    ∧ (create_or_update_post exDate [exBookmark] [] exStorePrev).1 ≠ none
    ∧ dictLookup
        (parseContent
          ((create_or_update_post exDate [exBookmark] []
            exStorePrev).1.getD [])).1 mpKey
      = none :=
  ⟨by decide, by decide, by decide⟩

/-- C10: corrected — for every produced file and every URL without
newline AND without backslash, `save_micropub_url` is idempotent: the
second application either rewrites the existing `micropub_url` line to
itself (the `re.sub` branch, whether the line was inherited or freshly
inserted) or, when the file has no frontmatter delimiter at all, changes
nothing both times.  A backslash-free URL is needed because the second
application pushes the line through `re.sub`'s replacement-escape
processing (see the counterexample). -/
theorem c10_save_micropub_url_idempotent
    (target : PyDate) (bmks : List Bookmark) (cat : List Char)
    (store : PyDate → Option (List Char)) (content url : List Char)
    (hprod : (create_or_update_post target bmks cat store).1 = some content)
    (hnl : '\n' ∉ url) (hbs : '\\' ∉ url) :
    (save_micropub_url content url).bind (fun r => save_micropub_url r url)
      = save_micropub_url content url := by
  cases hs : save_micropub_url content url with
  | none => rfl
  | some r => exact save_micropub_url_idem hnl hbs hs

/-- C10 witness: idempotence at the concrete produced file and a concrete
URL. -/
theorem c10_witness :
    '\n' ∉ "https://u".toList ∧
    (save_micropub_url exCreated "https://u".toList).bind
        (fun r => save_micropub_url r "https://u".toList)
      = save_micropub_url exCreated "https://u".toList :=
  ⟨by decide,
   c10_save_micropub_url_idempotent exDate [exBookmark] []
     (fun _ => none) exCreated "https://u".toList (by decide) (by decide)
     (by decide)⟩

/-- C10 counterexample: the URL `\n` (backslash-n, no newline character)
falsifies the claim on a produced file — the second application passes
the inserted line through `re.sub`'s replacement-escape processing, which
turns the literal `\n` into a newline, so applying twice differs from
applying once. -/
theorem c10_cex_backslash_url :
    '\n' ∉ exUrlBackslash
    ∧ (save_micropub_url exCreated exUrlBackslash).bind
          (fun r => save_micropub_url r exUrlBackslash)
        ≠ save_micropub_url exCreated exUrlBackslash :=
  ⟨by decide, by decide⟩

/-- C9: `parse_existing_post` returns `(none, empty, none)` for a missing
file, and for an existing file containing fewer than two `---`
occurrences it returns an empty frontmatter mapping and the whole content
as the body. -/
theorem c9_parse_missing_or_underdelimited :
    parse_existing_post none = (none, [], none)
    ∧ ∀ content : List Char, countSub dashes content < 2 →
        parse_existing_post (some content)
          = (some [], parseLinks content, some content) := by
  refine ⟨rfl, fun content h => ?_⟩
  unfold parse_existing_post parseContent
  cases hpre : ("---".toList).isPrefixOf content
  · simp only [hpre, Bool.false_eq_true, if_false]
    rfl
  · simp only [hpre, if_true]
    have hlen := @pySplitMax_length "---".toList (by decide) 2 content
    have h2 : countSub "---".toList content < 2 := h
    rcases hsp : pySplitMax "---".toList 2 content with - | ⟨a, l1⟩
    · rw [hsp] at hlen
      simp at hlen
    · rcases l1 with - | ⟨b, l2⟩
      · simp only [hsp]
        rfl
      · rcases l2 with - | ⟨c, l3⟩
        · simp only [hsp]
          rfl
        · rw [hsp] at hlen
          simp only [List.length_cons] at hlen
          omega

/-- C9 witness: the characterisation at a concrete missing file and at the
delimiter-free content `hello`. -/
theorem c9_witness :
    countSub dashes "hello".toList < 2 ∧
    parse_existing_post (some "hello".toList)
      = (some [], parseLinks "hello".toList, some "hello".toList) :=
  ⟨by decide,
   c9_parse_missing_or_underdelimited.2 "hello".toList (by decide)⟩

/-- C3: corrected — the claimed block structure holds when excerpt, note
and every highlight text are non-blank after stripping: `format_bookmark`
then equals the spec-modelled rendering (one link line, one indented
excerpt paragraph, one indented italicised note paragraph, one blockquote
block per highlight, blank-line separated, whitespace collapsed).  A
non-empty but whitespace-only excerpt or highlight text is dropped
entirely, so the count in the original claim fails (see the
counterexample). -/
theorem c3_format_bookmark_blocks (b : Bookmark)
    (hex : pyStrip b.excerpt ≠ []) (hnote : pyStrip b.note ≠ [])
    (hhl : ∀ hl ∈ b.highlights, pyStrip (hl.text.getD []) ≠ []) :
    format_bookmark b = specFormatBookmark b := by
  simp only [format_bookmark, specFormatBookmark]
  rw [if_neg (by simp [List.isEmpty_iff, hex]),
    if_neg (by simp [List.isEmpty_iff, hnote]),
    foldl_append_chunks fmtHighlightChunk b.highlights]
  simp only [List.cons_append, List.nil_append]
  rw [joinBlocks_cons]
  have hmapeq : b.highlights.map fmtHighlightChunk
      = b.highlights.map (fun hl => "\n\n".toList ++ specHighlightBlock hl) := by
    apply List.map_congr_left
    intro hl hmem
    exact fmtHighlightChunk_eq_spec (hhl hl hmem)
  rw [hmapeq,
    show ("\n\n    ".toList : List Char)
      = "\n\n".toList ++ "    ".toList from by decide,
    show ("\n\n    *".toList : List Char)
      = "\n\n".toList ++ "    *".toList from by decide]
  simp [List.append_assoc, Function.comp_def]

/-- C3 witness: the block equality at a concrete bookmark with excerpt,
note and one highlight. -/
theorem c3_witness :
    pyStrip exBookmark.excerpt ≠ [] ∧
    format_bookmark exBookmark = specFormatBookmark exBookmark :=
  ⟨by decide,
   c3_format_bookmark_blocks exBookmark (by decide) (by decide)
     (by decide)⟩

/-- C3 counterexample: a bookmark with non-empty excerpt `" "` and one
highlight with non-empty text `" "`: the code drops both blocks, so the
rendering is not the claimed one-link + one-excerpt + one-note + N-block
structure. -/
theorem c3_cex_blank_texts :
    format_bookmark exBlankBookmark ≠ specFormatBookmark exBlankBookmark := by
  decide

/-- C5: corrected — for a non-empty fetched list and an existing previous
file, the regenerated file's body is built entirely from the fresh
bookmarks, and the `micropub_url` value is preserved whenever the
previous value is non-empty and line-safe.  (A previous `micropub_url`
key with an empty value is falsy in the code and silently dropped — see
the counterexample.) -/
theorem c5_regeneration_preserves_micropub_url
    (target : PyDate) (bmks : List Bookmark) (cat : List Char)
    (store : PyDate → Option (List Char)) (prev content : List Char)
    (hprev : store target = some prev) (hne : bmks ≠ [])
    (hcontent : (create_or_update_post target bmks cat store).1 = some content)
    (hcat : cleanCat cat)
    (hval : ∀ u, dictLookup (parseContent prev).1 mpKey = some u →
      cleanValue u) :
    dictLookup (parseContent content).1 mpKey
      = dictLookup (parseContent prev).1 mpKey
    ∧ (parseContent content).2.2 = pyStrip (renderBody bmks) := by
  have hbne : bmks.isEmpty = false := by
    cases bmks with
    | nil => exact absurd rfl hne
    | cons x xs => rfl
  unfold create_or_update_post at hcontent
  rw [if_neg (by simp [hbne]), hprev] at hcontent
  simp only at hcontent
  have hc2 : generate_frontmatter target
        (dictLookup (parseContent prev).1 mpKey) cat
        ++ ('\n' :: renderBody bmks) ++ ['\n'] = content :=
    (Option.some.injEq _ _).mp hcontent
  have hc3 : content
      = generate_frontmatter target
          (dictLookup (parseContent prev).1 mpKey) cat
          ++ '\n' :: (renderBody bmks ++ ['\n']) := by
    rw [← hc2]
    simp [List.append_assoc]
  rw [hc3]
  constructor
  · exact generate_frontmatter_lookup target _ cat _ hcat hval
  · rw [(parseContent_generate_frontmatter target _ cat _ hcat hval).2,
      pyStrip_append_newline]

/-- C5 witness: preservation at a concrete store whose previous file has
a non-empty `micropub_url`, with one fresh bookmark. -/
theorem c5_witness :
    (fun d => if d = exDate
        then some ("---\ntitle: t\nmicropub_url: https://old\n---\nold".toList)
        else none : PyDate → Option (List Char)) exDate
      = some ("---\ntitle: t\nmicropub_url: https://old\n---\nold".toList) ∧
    dictLookup
        (parseContent
          ((create_or_update_post exDate [exBookmark] []
            (fun d => if d = exDate
              then some
                ("---\ntitle: t\nmicropub_url: https://old\n---\nold".toList)
              else none)).1.getD [])).1 mpKey
      = dictLookup
          (parseContent
            ("---\ntitle: t\nmicropub_url: https://old\n---\nold".toList)).1
          mpKey := by
  refine ⟨by decide, ?_⟩
  have h := c5_regeneration_preserves_micropub_url exDate [exBookmark] []
    (fun d => if d = exDate
      then some ("---\ntitle: t\nmicropub_url: https://old\n---\nold".toList)
      else none)
    ("---\ntitle: t\nmicropub_url: https://old\n---\nold".toList)
    ((create_or_update_post exDate [exBookmark] []
      (fun d => if d = exDate
        then some ("---\ntitle: t\nmicropub_url: https://old\n---\nold".toList)
        else none)).1.getD [])
    (by decide) (by decide) (by decide) ⟨by decide, by decide⟩
    (fun u hu => by
      rw [show dictLookup
          (parseContent
            ("---\ntitle: t\nmicropub_url: https://old\n---\nold".toList)).1
          mpKey = some "https://old".toList from by decide] at hu
      rw [← (Option.some.injEq _ _).mp hu]
      exact ⟨by decide, by decide, by decide⟩)
  exact h.1

/-- C7: on a non-success response (create or update) the publish run
signals failure without harm: it returns `False`, leaves the draft file
unchanged, neither exits nor raises, and the response body is among the
printed messages. -/
theorem c7_publish_failure_safe (content : List Char) (target : PyDate)
    (resp : HttpResponse)
    (hbody : (pyStrip (parseContent content).2.2).isEmpty = false)
    (hupd : pyTruthyOpt (dictLookup (parseContent content).1 mpKey) = true →
      ¬ (resp.status = 200 ∨ resp.status = 204))
    (hcre : pyTruthyOpt (dictLookup (parseContent content).1 mpKey) = false →
      ¬ (resp.status = 201 ∨ resp.status = 202)) :
    (publish_to_microblog (some content) target resp).retval = some false
    ∧ (publish_to_microblog (some content) target resp).file = some content
    ∧ (publish_to_microblog (some content) target resp).exitCode = none
    ∧ (publish_to_microblog (some content) target resp).raised = false
    ∧ resp.text ∈ (publish_to_microblog (some content) target resp).printed := by
  simp only [publish_to_microblog]
  rw [if_neg (by simp [hbody])]
  cases htr : pyTruthyOpt (dictLookup (parseContent content).1 mpKey)
  · simp only [htr, Bool.false_eq_true, if_false]
    rw [if_neg (by simpa using hcre htr)]
    refine ⟨rfl, rfl, rfl, rfl, ?_⟩
    simp
  · simp only [htr, if_true]
    rw [if_neg (by simpa using hupd htr)]
    refine ⟨rfl, rfl, rfl, rfl, ?_⟩
    simp

/-- C7 witness: a concrete draft with no recorded identifier and a 500
response. -/
theorem c7_witness :
    (pyStrip (parseContent exDraft).2.2).isEmpty = false ∧
    ((publish_to_microblog (some exDraft) exDate exResp500).retval
        = some false
      ∧ (publish_to_microblog (some exDraft) exDate exResp500).file
        = some exDraft
      ∧ (publish_to_microblog (some exDraft) exDate exResp500).exitCode = none
      ∧ (publish_to_microblog (some exDraft) exDate exResp500).raised = false
      ∧ exResp500.text
        ∈ (publish_to_microblog (some exDraft) exDate exResp500).printed) :=
  ⟨by decide,
   c7_publish_failure_safe exDraft exDate exResp500 (by decide)
     (fun h => absurd h (by decide))
     (fun _ => by decide)⟩

theorem fmLines_some_eq_append (d : PyDate) (cat loc : List Char)
    (hne : loc ≠ []) :
    fmLines d (some loc) cat
      = fmLines d none cat ++ [mpColonSpace ++ loc] := by
  simp [fmLines, mpLines, List.isEmpty_iff, hne]

/-- C8: corrected — for a generated draft without a recorded identifier
(and no stray `micropub_url:` text anywhere), a 201/202 response carrying
a non-empty, line-safe Location results in exactly that Location being
inserted into the frontmatter — the file afterwards is the same draft
regenerated with that identifier — and re-parsing returns exactly that
string.  A draft with no frontmatter delimiter is left unchanged (see the
counterexample). -/
theorem c8_location_saved_roundtrip (d : PyDate) (cat body loc : List Char)
    (resp : HttpResponse) (hcat : cleanCat cat) (hloc : cleanValue loc)
    (hmp : containsSub mpPat
      (generate_frontmatter d none cat ++ '\n' :: body) = false)
    (hbody : pyStrip body ≠ [])
    (hst : resp.status = 201 ∨ resp.status = 202)
    (hrloc : resp.location = some loc) :
    (publish_to_microblog
        (some (generate_frontmatter d none cat ++ '\n' :: body)) d resp).file
      = some (generate_frontmatter d (some loc) cat ++ '\n' :: body)
    ∧ dictLookup
        (parseContent (generate_frontmatter d (some loc) cat
          ++ '\n' :: body)).1 mpKey
      = some loc := by
  have hmnone : ∀ u : List Char,
      (none : Option (List Char)) = some u → cleanValue u :=
    fun u hu => nomatch hu
  have hlocne : loc ≠ [] := cleanEdge_ne_nil hloc.2.2
  have hparse := parseContent_generate_frontmatter d none cat body hcat hmnone
  have hlookup0 := generate_frontmatter_lookup d none cat body hcat hmnone
  have hFnd : containsSub dashes (flattenLines (fmLines d none cat)) = false :=
    containsSub_flattenLines_false (by decide) (by decide)
      (fmLines_no_dashes hcat.2 (fun u hu => nomatch hu))
  have hFne : flattenLines (fmLines d none cat) ≠ [] := by
    rw [fmLines_eq_cons]
    exact flattenLines_cons_ne_nil (titleLine_ne_nil d)
  have hshape : generate_frontmatter d none cat ++ '\n' :: body
      = ("---".toList ++ '\n' :: flattenLines (fmLines d none cat))
          ++ (delimLine ++ body) := by
    unfold generate_frontmatter
    rw [show delimLine = '\n' :: ("---".toList ++ ['\n']) from by decide]
    simp [List.append_assoc, List.cons_append, List.singleton_append]
  have hlast2 : ∀ c,
      ("---".toList ++ '\n' :: flattenLines (fmLines d none cat)).getLast?
        = some c → c ∉ delimLine := by
    intro c hc
    rw [show ("---".toList ++ '\n' :: flattenLines (fmLines d none cat))
        = ("---".toList ++ ['\n']) ++ flattenLines (fmLines d none cat)
        from by simp,
      List.getLast?_append_of_ne_nil _ hFne] at hc
    exact fmLines_none_last_not_delim d cat c hc
  have hflat2 : flattenLines (fmLines d (some loc) cat)
      = flattenLines (fmLines d none cat) ++ '\n' :: (mpColonSpace ++ loc) := by
    rw [fmLines_some_eq_append d cat loc hlocne,
      flattenLines_append_single _ (by rw [fmLines_eq_cons]; simp)]
  have hsave : save_micropub_url
      (generate_frontmatter d none cat ++ '\n' :: body) loc
      = some (generate_frontmatter d (some loc) cat ++ '\n' :: body) := by
    rw [save_micropub_url, if_neg (by simp [hmp]), hshape,
      replaceFirst_append_self (by decide)
        (containsSub_delimLine_header hFnd) hlast2]
    congr 1
    unfold generate_frontmatter
    rw [hflat2,
      show delimLine = '\n' :: ("---".toList ++ ['\n']) from by decide]
    simp [List.append_assoc, List.cons_append, List.singleton_append]
  have hb2 : pyStrip (parseContent
      (generate_frontmatter d none cat ++ '\n' :: body)).2.2
      = pyStrip body := by
    rw [hparse.2]
    exact stripWith_idem _ _
  refine ⟨?_, generate_frontmatter_lookup d (some loc) cat body hcat
    (fun u2 h => ((Option.some.injEq _ _).mp h) ▸ hloc)⟩
  simp only [publish_to_microblog]
  rw [if_neg (by simp [hb2, List.isEmpty_iff, hbody])]
  simp only [hlookup0]
  rw [show pyTruthyOpt (none : Option (List Char)) = false from rfl]
  simp only [Bool.false_eq_true, if_false]
  rw [if_pos (by rcases hst with h | h <;> simp [h])]
  simp only [hrloc, Option.getD_some]
  rw [if_neg (by simp [List.isEmpty_iff, hlocne])]
  rw [hsave]

/-- C8 witness: the create flow at a concrete draft, category-free
frontmatter and Location `https://mb/p/1`. -/
theorem c8_witness :
    cleanValue "https://mb/p/1".toList ∧
    ((publish_to_microblog
        (some (generate_frontmatter exDate none [] ++ '\n' :: ['b']))
        exDate exResp201).file
      = some (generate_frontmatter exDate (some "https://mb/p/1".toList) []
          ++ '\n' :: ['b'])
    ∧ dictLookup
        (parseContent (generate_frontmatter exDate
          (some "https://mb/p/1".toList) [] ++ '\n' :: ['b'])).1 mpKey
      = some "https://mb/p/1".toList) :=
  ⟨⟨by decide, by decide, by decide⟩,
   c8_location_saved_roundtrip exDate [] ['b'] "https://mb/p/1".toList
     exResp201 ⟨by decide, by decide⟩ ⟨by decide, by decide, by decide⟩
     (by decide) (by decide) (Or.inl (by decide)) (by decide)⟩

/-- C8 counterexample: a draft with no frontmatter block.  The publish
create flow reports success and even prints the saved-URL message, but
`save_micropub_url` finds no `\n---\n` to insert before: the file is
unchanged and re-parsing yields no `micropub_url` at all. -/
theorem c8_cex_no_frontmatter :
    (publish_to_microblog (some exNoFrontmatter) exDate exResp201).retval
      = some true
    ∧ (publish_to_microblog (some exNoFrontmatter) exDate exResp201).file
      = some exNoFrontmatter
    ∧ dictLookup (parseContent exNoFrontmatter).1 mpKey = none :=
  ⟨by decide, by decide, by decide⟩
